import Mathlib

/-!
Shallow embedding of the link-recognition and affiliate-rewriting engine of
`bot.py` (functions `convert_amazon_link` and `convert_all_links`), together
with the string/URL library routines they rely on (`urllib.parse.urlparse`,
`parse_qs`, `urlencode`, `quote_plus`, `unquote_plus`, `str.replace`,
`re.search` / `re.finditer` for the fixed pattern set used by the program).

Strings are modelled as lists of characters (`Str`).  The embedding is
executable; concrete runs are settled with `decide` / `rfl`.
-/

namespace AffBot

abbrev Str := List Char

/-- ASCII lower-casing of one character, as `str.lower` acts on ASCII. -/
def lowerC (c : Char) : Char :=
  if 'A' ≤ c ∧ c ≤ 'Z' then Char.ofNat (c.toNat + 32) else c

def lowerStr (s : Str) : Str := s.map lowerC

def isAsciiAlpha (c : Char) : Bool :=
  ('a' ≤ c ∧ c ≤ 'z') ∨ ('A' ≤ c ∧ c ≤ 'Z')

def isAsciiDigit (c : Char) : Bool := '0' ≤ c ∧ c ≤ '9'

/-- The character class `[A-Za-z0-9]`; also `[A-Z0-9]` under `re.IGNORECASE`. -/
def isAlnumA (c : Char) : Bool := isAsciiAlpha c || isAsciiDigit c

/-- Characters allowed in a URL scheme by `urllib.parse` (`scheme_chars`). -/
def isSchemeChar (c : Char) : Bool :=
  isAlnumA c || c = '+' || c = '-' || c = '.'

/-- Case-insensitive `startswith`, as literal text matches under `re.IGNORECASE`. -/
def startsWithCI (w s : Str) : Bool := (lowerStr w).isPrefixOf (lowerStr s)

/-- Split a list at the first occurrence of `c`; `none` when `c` is absent. -/
def splitFirst (c : Char) : Str → Option (Str × Str)
  | [] => none
  | x :: xs =>
    if x = c then some ([], xs)
    else (splitFirst c xs).map (fun p => (x :: p.1, p.2))

/-- Split a list at the last occurrence of `c`. -/
def splitLast (c : Char) (s : Str) : Option (Str × Str) :=
  match splitFirst c s.reverse with
  | none => none
  | some (rpost, rpre) => some (rpre.reverse, rpost.reverse)

/-- `str.split(sep)` for a one-character separator (Python semantics:
`"".split(sep) = ['']`, separators are not merged). -/
def splitOnChar (c : Char) : Str → List Str
  | [] => [[]]
  | x :: xs =>
    if x = c then [] :: splitOnChar c xs
    else
      match splitOnChar c xs with
      | [] => [[x]]
      | h :: t => (x :: h) :: t

/-- Result record of `urllib.parse.urlparse`. -/
structure ParseResult where
  scheme : Str
  netloc : Str
  path : Str
  params : Str
  query : Str
  fragment : Str
deriving Repr, DecidableEq

def isSchemeStr (w : Str) : Bool :=
  match w with
  | [] => false
  | c :: _ => isAsciiAlpha c && w.all isSchemeChar

/-- Scheme detection of `urlsplit`: split at the first colon when everything
before it is a valid scheme; the scheme is lower-cased. -/
def splitScheme (s : Str) : Str × Str :=
  match splitFirst ':' s with
  | none => ([], s)
  | some (pre, rest) =>
    if pre ≠ [] ∧ isSchemeStr pre then (lowerStr pre, rest) else ([], s)

def isNetlocDelim (c : Char) : Bool := c = '/' || c = '?' || c = '#'

/-- `urlsplit` netloc bracket validation: raises when `[` and `]` do not both
occur or both not occur in the netloc. -/
def bracketOk (n : Str) : Bool := (('[' ∈ n) : Bool) = ((']' ∈ n) : Bool)

/-- Schemes for which `urlparse` separates `;`-parameters from the path. -/
def usesParams : List Str :=
  [[], "ftp".data, "hdl".data, "prospero".data, "http".data, "imap".data,
   "https".data, "shttp".data, "rtsp".data, "rtspu".data, "sip".data,
   "sips".data, "mms".data, "sftp".data, "tel".data]

/-- The `_splitparams` helper of `urllib.parse`: split `;params` off the last
path segment. -/
def splitParamsSeg (p : Str) : Str × Str :=
  if '/' ∈ p then
    match splitLast '/' p with
    | some (pre, seg) =>
      match splitFirst ';' seg with
      | none => (p, [])
      | some (a, b) => (pre ++ '/' :: a, b)
    | none => (p, [])
  else
    match splitFirst ';' p with
    | none => (p, [])
    | some (a, b) => (a, b)

/-- Netloc extraction of `urlsplit`: when the remainder starts with `//`,
the netloc runs until the first `/`, `?` or `#`. -/
def splitNetloc (r1 : Str) : Str × Str :=
  if ('/' :: '/' :: []).isPrefixOf r1 then
    ((r1.drop 2).takeWhile (fun c => ¬ isNetlocDelim c),
     (r1.drop 2).dropWhile (fun c => ¬ isNetlocDelim c))
  else ([], r1)

/-- `s.split(c, 1)` when `c` occurs, else `(s, '')`. -/
def splitAtChar (c : Char) (s : Str) : Str × Str :=
  match splitFirst c s with
  | none => (s, [])
  | some (a, b) => (a, b)

/-- `urllib.parse.urlparse`.  Returns `none` exactly where the Python function
raises (unbalanced brackets in the netloc), which `convert_amazon_link`
catches.  Tab/CR/LF characters are removed first, as `urlsplit` does. -/
def urlparse (url0 : Str) : Option ParseResult :=
  let url := url0.filter (fun c => ¬ (c = '\t' ∨ c = '\r' ∨ c = '\n'))
  let sp := splitScheme url
  let nl := splitNetloc sp.2
  if bracketOk nl.1 then
    let fr := splitAtChar '#' nl.2
    let qr := splitAtChar '?' fr.1
    if sp.1 ∈ usesParams ∧ ';' ∈ qr.1 then
      let pp := splitParamsSeg qr.1
      some ⟨sp.1, nl.1, pp.1, pp.2, qr.2, fr.2⟩
    else
      some ⟨sp.1, nl.1, qr.1, [], qr.2, fr.2⟩
  else none

/-! Percent-encoding (`urllib.parse.quote_plus` / `unquote_plus`). -/

/-- UTF-8 bytes of one character, in arithmetic form (what `str.encode` emits). -/
def utf8Enc (c : Char) : List Nat :=
  let n := c.toNat
  if n < 0x80 then [n]
  else if n < 0x800 then [0xC0 + n / 64, 0x80 + n % 64]
  else if n < 0x10000 then
    [0xE0 + n / 4096, 0x80 + (n / 64) % 64, 0x80 + n % 64]
  else
    [0xF0 + n / 262144, 0x80 + (n / 4096) % 64, 0x80 + (n / 64) % 64,
     0x80 + n % 64]

def hexDigitU (n : Nat) : Char :=
  if n < 10 then Char.ofNat ('0'.toNat + n) else Char.ofNat ('A'.toNat + n - 10)

def pctByte (b : Nat) : Str := ['%', hexDigitU (b / 16), hexDigitU (b % 16)]

/-- The always-safe characters of `urllib.parse.quote` (letters, digits,
`_.-~`); `urlencode` passes `safe=''` so nothing else is safe. -/
def isSafeQ (c : Char) : Bool :=
  isAlnumA c || c = '_' || c = '.' || c = '-' || c = '~'

/-- Per-character chunk of `quote_plus` with `safe=''`. -/
def qchunk (c : Char) : Str :=
  if isSafeQ c then [c]
  else if c = ' ' then ['+']
  else (utf8Enc c).flatMap pctByte

/-- `urllib.parse.quote_plus(s, safe='')`. -/
def quotePlus (s : Str) : Str := s.flatMap qchunk

def hexVal (c : Char) : Option Nat :=
  if '0' ≤ c ∧ c ≤ '9' then some (c.toNat - '0'.toNat)
  else if 'a' ≤ c ∧ c ≤ 'f' then some (c.toNat - 'a'.toNat + 10)
  else if 'A' ≤ c ∧ c ≤ 'F' then some (c.toNat - 'A'.toNat + 10)
  else none

inductive Tok where
  | lit (c : Char)
  | byte (b : Nat)
deriving Repr, DecidableEq

def Tok.isByte : Tok → Bool
  | .byte _ => true
  | .lit _ => false

def Tok.val : Tok → Nat
  | .byte b => b
  | .lit _ => 0

/-- Tokenize a percent-encoded string: each valid `%hh` becomes a byte,
everything else stays literal (as `unquote` treats invalid escapes). -/
def tokenize : Str → List Tok
  | c :: h :: l :: rest =>
    if c = '%' then
      match hexVal h, hexVal l with
      | some a, some b => .byte (16 * a + b) :: tokenize rest
      | _, _ => .lit c :: tokenize (h :: l :: rest)
    else .lit c :: tokenize (h :: l :: rest)
  | c :: rest => .lit c :: tokenize rest
  | [] => []

def replChar : Char := Char.ofNat 0xFFFD

def isCont (b : Nat) : Bool := 0x80 ≤ b ∧ b ≤ 0xBF

/-- Permitted first-continuation range for a 3-byte lead. -/
def cont1Ok3 (b b1 : Nat) : Bool :=
  if b = 0xE0 then 0xA0 ≤ b1 ∧ b1 ≤ 0xBF
  else if b = 0xED then 0x80 ≤ b1 ∧ b1 ≤ 0x9F
  else isCont b1

/-- Permitted first-continuation range for a 4-byte lead. -/
def cont1Ok4 (b b1 : Nat) : Bool :=
  if b = 0xF0 then 0x90 ≤ b1 ∧ b1 ≤ 0xBF
  else if b = 0xF4 then 0x80 ≤ b1 ∧ b1 ≤ 0x8F
  else isCont b1

/-- One UTF-8 decoding step: the character decoded at lead byte `b` with
following bytes `bs`, and the number of continuation bytes consumed.
Invalid sequences yield the replacement character and consume only the lead
byte (`errors='replace'`). -/
def utf8Step (b : Nat) (bs : List Nat) : Char × Nat :=
  if b < 0x80 then (Char.ofNat b, 0)
  else if 0xC2 ≤ b ∧ b ≤ 0xDF then
    match bs with
    | b1 :: _ =>
      if isCont b1 then (Char.ofNat ((b - 0xC0) * 64 + (b1 - 0x80)), 1)
      else (replChar, 0)
    | [] => (replChar, 0)
  else if 0xE0 ≤ b ∧ b ≤ 0xEF then
    match bs with
    | b1 :: b2 :: _ =>
      if cont1Ok3 b b1 ∧ isCont b2 then
        (Char.ofNat ((b - 0xE0) * 4096 + (b1 - 0x80) * 64 + (b2 - 0x80)), 2)
      else (replChar, 0)
    | _ => (replChar, 0)
  else if 0xF0 ≤ b ∧ b ≤ 0xF4 then
    match bs with
    | b1 :: b2 :: b3 :: _ =>
      if cont1Ok4 b b1 ∧ isCont b2 ∧ isCont b3 then
        (Char.ofNat ((b - 0xF0) * 262144 + (b1 - 0x80) * 4096 +
          (b2 - 0x80) * 64 + (b3 - 0x80)), 3)
      else (replChar, 0)
    | _ => (replChar, 0)
  else (replChar, 0)

/-- UTF-8 decoding with replacement of invalid bytes (`errors='replace'`);
the first argument counts continuation bytes of the previous character still
to be skipped. -/
def utf8DecGo : Nat → List Nat → Str
  | 0, [] => []
  | 0, b :: bs => (utf8Step b bs).1 :: utf8DecGo (utf8Step b bs).2 bs
  | _ + 1, [] => []
  | k + 1, _ :: bs => utf8DecGo k bs

def utf8Dec (l : List Nat) : Str := utf8DecGo 0 l

/-- Regroup tokens as `unquote` does: percent-decoded bytes accumulate in a
buffer that is UTF-8 decoded (with `errors='replace'`) when a literal
character or the end of the string is reached. -/
def detokGo : List Nat → List Tok → Str
  | buf, [] => utf8Dec buf
  | buf, .byte b :: t => detokGo (buf ++ [b]) t
  | buf, .lit c :: t => utf8Dec buf ++ c :: detokGo [] t

def detok (ts : List Tok) : Str := detokGo [] ts

/-- `urllib.parse.unquote` (str form, utf-8, `errors='replace'`). -/
def unquote (s : Str) : Str := detok (tokenize s)

/-- `urllib.parse.unquote_plus`. -/
def unquotePlus (s : Str) : Str :=
  unquote (s.map (fun c => if c = '+' then ' ' else c))

/-! Query-string handling (`parse_qsl`, `parse_qs`, `urlencode`). -/

/-- Treatment of one `&`-separated piece by `parse_qsl` with default
arguments: empty pieces, pieces without `=` and pieces with an empty value
are all dropped. -/
def qslPiece (nv : Str) : Option (Str × Str) :=
  if nv = [] then none
  else match splitFirst '=' nv with
    | none => none
    | some (n, v) =>
      if v = [] then none else some (unquotePlus n, unquotePlus v)

/-- `urllib.parse.parse_qsl` with default arguments. -/
def parseQsl (qs : Str) : List (Str × Str) :=
  (splitOnChar '&' qs).filterMap qslPiece

/-- Dict building of `parse_qs`: append the value to an existing key in
place, otherwise add the key at the end. -/
def addPair (d : List (Str × List Str)) (k : Str) (v : Str) :
    List (Str × List Str) :=
  match d with
  | [] => [(k, [v])]
  | (k', vs) :: t => if k' = k then (k', vs ++ [v]) :: t else (k', vs) :: addPair t k v

/-- `urllib.parse.parse_qs` with default arguments. -/
def parseQs (qs : Str) : List (Str × List Str) :=
  (parseQsl qs).foldl (fun d p => addPair d p.1 p.2) []

def hasKey (d : List (Str × List Str)) (k : Str) : Bool :=
  d.any (fun p => p.1 = k)

/-- `del d[k]` on a dict with unique keys. -/
def delKey (d : List (Str × List Str)) (k : Str) : List (Str × List Str) :=
  match d with
  | [] => []
  | (k', vs) :: t => if k' = k then t else (k', vs) :: delKey t k

/-- `d[k] = v`: replace in place when present, else append. -/
def setKey (d : List (Str × List Str)) (k : Str) (v : List Str) :
    List (Str × List Str) :=
  match d with
  | [] => [(k, v)]
  | (k', vs) :: t => if k' = k then (k', v) :: t else (k', vs) :: setKey t k v

def intercalateC (c : Char) : List Str → Str
  | [] => []
  | [p] => p
  | p :: q :: t => p ++ c :: intercalateC c (q :: t)

/-- `urllib.parse.urlencode(d, doseq=True)` for a dict of string lists. -/
def urlencode (d : List (Str × List Str)) : Str :=
  intercalateC '&'
    (d.flatMap (fun p => p.2.map (fun v => quotePlus p.1 ++ '=' :: quotePlus v)))

/-! ASIN extraction: the fourteen `asin_patterns` of `convert_amazon_link`,
searched with `re.search(..., re.IGNORECASE)` in priority order. -/

/-- Leftmost-search of an anchored matcher: try each start position from the
left, as `re.search` does. -/
def searchPos (m : Str → Option Str) : Str → Option Str
  | [] => m []
  | c :: t =>
    match m (c :: t) with
    | some cap => some cap
    | none => searchPos m t

/-- Consume `([A-Z0-9]{10})` under `IGNORECASE`: exactly ten class characters. -/
def grab10 (s : Str) : Option (Str × Str) :=
  let pre := s.take 10
  if pre.length = 10 ∧ pre.all isAlnumA then some (pre, s.drop 10) else none

/-- Matcher for a pattern of the form `<lit>([A-Z0-9]{10})`. -/
def mLit10 (lit : Str) (s : Str) : Option Str :=
  if startsWithCI lit s then (grab10 (s.drop lit.length)).map (fun p => p.1)
  else none

def atEndOrQm (r : Str) : Bool :=
  match r with
  | [] => true
  | c :: _ => c = '?'

/-- Matcher for `/([A-Z0-9]{10})/?(?:\?|$)`. -/
def mTailEnd (s : Str) : Option Str :=
  if startsWithCI ('/' :: []) s then
    match grab10 (s.drop 1) with
    | none => none
    | some (cap, rest) =>
      if atEndOrQm rest then some cap
      else if rest.headI = '/' ∧ atEndOrQm (rest.drop 1) then some cap
      else none
  else none

/-- Acceptance of the remainder for `[^/]*/?(?:\?|$)` (after the slash that
follows the capture): some backtrack split of a non-slash run, an optional
slash, then end of string or a literal question mark. -/
def seg5Ok (u : Str) : Bool :=
  if '?' ∈ u.takeWhile (fun c => c ≠ '/') then true
  else
    match u.dropWhile (fun c => c ≠ '/') with
    | [] => true
    | _ :: w => w = [] ∨ w.headI = '?'

/-- Matcher for `/([A-Z0-9]{10})/[^/]*/?(?:\?|$)`. -/
def mSeg5 (s : Str) : Option Str :=
  if startsWithCI ('/' :: []) s then
    match grab10 (s.drop 1) with
    | none => none
    | some (cap, rest) =>
      match rest with
      | '/' :: u => if seg5Ok u then some cap else none
      | _ => none
  else none

/-- Matcher for `/[^/]*/dp/([A-Z0-9]{10})`. -/
def mAnySegDp (s : Str) : Option Str :=
  match s with
  | '/' :: u =>
    let run := u.takeWhile (fun c => c ≠ '/')
    let v := u.drop run.length
    if startsWithCI "/dp/".data v then (grab10 (v.drop 4)).map (fun p => p.1)
    else none
  | _ => none

/-- Matcher for `\/([A-Z0-9]{10})(?=\/|\?|$)`. -/
def mLookahead (s : Str) : Option Str :=
  match s with
  | '/' :: u =>
    match grab10 u with
    | none => none
    | some (cap, rest) =>
      match rest with
      | [] => some cap
      | c :: _ => if c = '/' ∨ c = '?' then some cap else none
  | _ => none

/-- The fourteen ASIN path patterns in source order. -/
def asinMatchers : List (Str → Option Str) :=
  [mLit10 "/dp/".data,
   mLit10 "/gp/product/".data,
   mLit10 "/product/".data,
   mTailEnd,
   mSeg5,
   mLit10 "/exec/obidos/ASIN/".data,
   mAnySegDp,
   mLookahead,
   mLit10 "/o/ASIN/".data,
   mLit10 "/ref=".data,
   mLit10 "/detail/-/".data,
   mLit10 "/product-reviews/".data,
   mLit10 "/ask/questions/".data,
   mLit10 "/customer-reviews/".data]

/-- The pattern loop of `convert_amazon_link`: first pattern (in order) whose
leftmost match passes the ten-character alphanumeric validation. -/
def tryMatchers : List (Str → Option Str) → Str → Option Str
  | [], _ => none
  | m :: ms, p =>
    match searchPos m p with
    | some cap =>
      if cap.length = 10 ∧ cap.all isAlnumA then some cap else tryMatchers ms p
    | none => tryMatchers ms p

def extractAsin (path : Str) : Option Str := tryMatchers asinMatchers path

/-! The rewrite function `convert_amazon_link(url, affiliate_tag)`.
`searchUrl` stands for the `SEARCH_URL` configuration value (environment
`search_url`, default `amazon.in`). -/

/-- The shortened-URL test of line 89: plain substring checks. -/
def isShortFlag (url : Str) : Bool :=
  decide ("amzn.to".data <:+: url) || decide ("a.co".data <:+: url)

def keepParams : List Str :=
  ["tag".data, "ref".data, "psc".data, "keywords".data, "qid".data, "sr".data]

def tagKey : Str := "tag".data

/-- Replace any existing `tag` entry by the affiliate tag (lines 134-141). -/
def retag (qp : List (Str × List Str)) (tag : Str) : List (Str × List Str) :=
  setKey (if hasKey qp tagKey then delKey qp tagKey else qp) tagKey [tag]

/-- `convert_amazon_link` of `bot.py` (lines 85-176). -/
def convertAmazonLink (url tag searchUrl : Str) : Str :=
  if isShortFlag url then
    url ++ (if '?' ∈ url then ['&'] else ['?']) ++ "tag=".data ++ tag
  else
    match urlparse url with
    | none => url
    | some pr =>
      let domain := lowerStr pr.netloc
      let qp := parseQs pr.query
      match extractAsin pr.path with
      | some asin =>
        let filtered := (retag qp tag).filter (fun p => p.1 ∈ keepParams)
        let targetDomain :=
          if "amazon".data <:+: domain then domain else searchUrl
        "https://".data ++ targetDomain ++ "/dp/".data ++ asin ++
          '?' :: urlencode filtered
      | none =>
        if "amazon".data <:+: domain then
          "https://".data ++ domain ++ pr.path ++ '?' :: urlencode (retag qp tag)
        else url

/-- The query string of a URL, as the program itself would read it back. -/
def queryOfUrl (u : Str) : Str :=
  match urlparse u with
  | some pr => pr.query
  | none => []

/-- The `tag` parameters of a URL: pairs of its parsed query whose decoded
name is exactly `tag`. -/
def tagPairsOf (u : Str) : List (Str × Str) :=
  (parseQsl (queryOfUrl u)).filter (fun kv => kv.1 = tagKey)

/-- Case-insensitive substring containment, the sense in which the
detection patterns require a catalog-domain substring. -/
def containsCI (s w : Str) : Prop := lowerStr w <:+: lowerStr s

instance (s w : Str) : Decidable (containsCI s w) := by
  rw [containsCI]
  infer_instance

/-- The netloc (domain) of a URL, empty when parsing fails. -/
def netlocOf (u : Str) : Str :=
  match urlparse u with
  | some pr => pr.netloc
  | none => []

/-- The recognition test `convert_amazon_link` effectively applies: the
shortened-link substring check, or a successful parse whose path yields an
ASIN or whose domain contains `amazon`. -/
def isCatalogRecognized (url : Str) : Bool :=
  isShortFlag url ||
    (match urlparse url with
     | none => false
     | some pr =>
       (extractAsin pr.path).isSome ||
         decide ("amazon".data <:+: lowerStr pr.netloc))

/-- Sanity of the `SEARCH_URL` configuration value: a plain host name with
no URL delimiters, brackets balanced, no control characters. -/
def configOk (su : Str) : Prop :=
  (∀ c ∈ su, isNetlocDelim c = false) ∧ bracketOk su = true ∧
    (∀ c ∈ su, ¬ (c = '\t' ∨ c = '\r' ∨ c = '\n'))

instance (su : Str) : Decidable (configOk su) := by
  rw [configOk]
  infer_instance

/-! Link detection: the eleven `amazon_patterns` of `convert_all_links`,
matched with `re.finditer(..., re.IGNORECASE)`. -/

/-- Python whitespace class `\s` (ASCII part). -/
def isWS (c : Char) : Bool :=
  c = ' ' || c = '\t' || c = '\n' || c = '\r' || c = '\x0b' || c = '\x0c'

/-- The negated class `[^\s\)\]\>\<]`. -/
def notExcl (c : Char) : Bool :=
  ¬ (isWS c || c = ')' || c = ']' || c = '>' || c = '<')

/-- The class `[a-z.]` under `IGNORECASE`. -/
def isDomChar (c : Char) : Bool := isAsciiAlpha c || c = '.'

/-- `https?://` (case-insensitive literals): returns consumed length. -/
def schemeLen (s : Str) : Option Nat :=
  if startsWithCI "https://".data s then some 8
  else if startsWithCI "http://".data s then some 7
  else none

/-- Optional `(?:www\.)?`: consumed greedily (no alternative can succeed
without it when it is present, since the following literals start
differently). -/
def optWWW (s : Str) : Nat := if startsWithCI "www.".data s then 4 else 0

/-- `[a-z.]{2,}/[^\s\)\]\>\<]*`: the greedy domain tail after `amazon.`;
the class excludes `/`, so only the maximal run can be followed by the
required slash. -/
def domSlashMunch (s : Str) : Option Nat :=
  let n := (s.takeWhile isDomChar).length
  if 2 ≤ n ∧ (s.drop n).headI = '/' ∧ n < s.length then
    some (n + 1 + ((s.drop (n + 1)).takeWhile notExcl).length)
  else none

/-- Pattern 1: `https?://(?:www\.)?amazon\.[a-z.]{2,}/[^\s\)\]\>\<]*`. -/
def mUrl1 (s : Str) : Option Nat :=
  match schemeLen s with
  | none => none
  | some k0 =>
    let k := k0 + optWWW (s.drop k0)
    if startsWithCI "amazon.".data (s.drop k) then
      (domSlashMunch (s.drop (k + 7))).map (fun t => k + 7 + t)
    else none

/-- The country domain alternation of pattern 2, in source order. -/
def countryDoms : List Str :=
  ["com".data, "in".data, "co.uk".data, "de".data, "fr".data, "it".data,
   "es".data, "ca".data, "com.au".data, "co.jp".data, "com.br".data,
   "com.mx".data, "cn".data, "sg".data, "ae".data, "sa".data]

/-- First alternation branch that matches and is followed by `/`. -/
def pickDom : List Str → Str → Option Nat
  | [], _ => none
  | d :: ds, s =>
    if startsWithCI d s ∧ (s.drop d.length).headI = '/' ∧ d.length < s.length
    then some d.length else pickDom ds s

/-- Pattern 2: `https?://(?:www\.)?amazon\.(?:com|in|co\.uk|...)/[^\s\)\]\>\<]*`. -/
def mUrl2 (s : Str) : Option Nat :=
  match schemeLen s with
  | none => none
  | some k0 =>
    let k := k0 + optWWW (s.drop k0)
    if startsWithCI "amazon.".data (s.drop k) then
      match pickDom countryDoms (s.drop (k + 7)) with
      | none => none
      | some dl =>
        some (k + 7 + dl + 1 +
          ((s.drop (k + 7 + dl + 1)).takeWhile notExcl).length)
    else none

/-- Patterns 3-5: `https?://<dom>/[A-Za-z0-9]+` for a literal domain. -/
def mShort (dom : Str) (s : Str) : Option Nat :=
  match schemeLen s with
  | none => none
  | some k =>
    if startsWithCI (dom ++ ['/']) (s.drop k) then
      let n := ((s.drop (k + dom.length + 1)).takeWhile isAlnumA).length
      if 1 ≤ n then some (k + dom.length + 1 + n) else none
    else none

/-- Patterns 6-8: `https?://(?:www\.)?<sub>\.amazon\.[a-z.]{2,}/[^...]*`. -/
def mSubAmazon (sub : Str) (s : Str) : Option Nat :=
  match schemeLen s with
  | none => none
  | some k0 =>
    let k := k0 + optWWW (s.drop k0)
    if startsWithCI (sub ++ ".amazon.".data) (s.drop k) then
      (domSlashMunch (s.drop (k + sub.length + 8))).map
        (fun t => k + sub.length + 8 + t)
    else none

/-- The lookahead `(?=\s|$|[\.\,\!\?\)\]])` of pattern 9. -/
def lookOk (r : Str) : Bool :=
  match r with
  | [] => true
  | c :: _ =>
    isWS c || c = '.' || c = ',' || c = '!' || c = '?' || c = ')' || c = ']'

/-- Greedy backtracking for pattern 9: largest `j` below the maximal munch
whose remainder satisfies the lookahead. -/
def backJ (u : Str) : Nat → Option Nat
  | 0 => if lookOk u then some 0 else none
  | j + 1 => if lookOk (u.drop (j + 1)) then some (j + 1) else backJ u j

/-- Pattern 9: `(?:www\.)?amazon\.[a-z.]{2,}/[^\s\)\]\>\<]*(?=\s|$|[\.\,\!\?\)\]])`. -/
def mNoProto (s : Str) : Option Nat :=
  let k := optWWW s
  if startsWithCI "amazon.".data (s.drop k) then
    let k2 := k + 7
    let n := ((s.drop k2).takeWhile isDomChar).length
    if 2 ≤ n ∧ (s.drop (k2 + n)).headI = '/' ∧ k2 + n < s.length then
      let base := k2 + n + 1
      let m := ((s.drop base).takeWhile notExcl).length
      (backJ (s.drop base) m).map (fun j => base + j)
    else none
  else none

/-- Pattern 10: `amazon://[^\s\)\]\>\<]*`. -/
def mAppLink (s : Str) : Option Nat :=
  if startsWithCI "amazon://".data s then
    some (9 + ((s.drop 9).takeWhile notExcl).length)
  else none

/-- The class `[a-zA-Z0-9\-]`. -/
def isSubChar (c : Char) : Bool := isAlnumA c || c = '-'

/-- Pattern 11: `https?://[a-zA-Z0-9\-]*\.amazon\.[a-z.]{2,}/[^\s\)\]\>\<]*`. -/
def mSubdom (s : Str) : Option Nat :=
  match schemeLen s with
  | none => none
  | some k =>
    let n := ((s.drop k).takeWhile isSubChar).length
    if startsWithCI ".amazon.".data (s.drop (k + n)) then
      (domSlashMunch (s.drop (k + n + 8))).map (fun t => k + n + 8 + t)
    else none

/-- The eleven `amazon_patterns` in source order. -/
def amazonMatchers : List (Str → Option Nat) :=
  [mUrl1, mUrl2, mShort "amzn.to".data, mShort "a.co".data,
   mShort "amazon.to".data, mSubAmazon "smile".data,
   mSubAmazon "business".data, mSubAmazon "prime".data, mNoProto, mAppLink,
   mSubdom]

/-- `re.finditer`: leftmost matches, scanning resumes past each match
(position advances by one after an empty match). -/
def findIterGo (m : Str → Option Nat) : Nat → Nat → Str → List (Nat × Nat)
  | pos, 0, [] =>
    (match m [] with
      | some _ => [(pos, 0)]
      | none => [])
  | _, _ + 1, [] => []
  | pos, 0, c :: t =>
    (match m (c :: t) with
      | some (n + 1) => (pos, n + 1) :: findIterGo m (pos + 1) n t
      | some 0 => (pos, 0) :: findIterGo m (pos + 1) 0 t
      | none => findIterGo m (pos + 1) 0 t)
  | pos, b + 1, _ :: t => findIterGo m (pos + 1) b t

def findIter (m : Str → Option Nat) (pos : Nat) (s : Str) : List (Nat × Nat) :=
  findIterGo m pos 0 s

/-- Strip one maximal trailing run of the given characters, as
`re.sub(r'[...]+$', '', url)` does. -/
def stripTrailing (cs : List Char) (u : Str) : Str :=
  (u.reverse.dropWhile (fun c => c ∈ cs)).reverse

/-- The cleaning of lines 229-230. -/
def cleanUrl (u : Str) : Str :=
  stripTrailing ['<', '>'] (stripTrailing ['.', ',', ';', '!', '?', ')', ']', '>'] u)

/-- The protocol normalization of lines 233-235 (case-sensitive
`startswith` / `in`). -/
def addProto (u : Str) : Str :=
  if ("http".data <+: u) ∨ ("amazon://".data <+: u) then u
  else if ("amzn.to".data <:+: u) ∨ ("a.co".data <:+: u) then u
  else "https://".data ++ u

structure LinkInfo where
  url : Str
  start : Nat
  ending : Nat
  patIdx : Nat
deriving Repr, DecidableEq

/-- The collection loop of lines 223-242: all matches of all patterns, in
pattern-major order, with cleaning and protocol normalization applied. -/
def allLinks (text : Str) : List LinkInfo :=
  (List.range amazonMatchers.length).flatMap (fun i =>
    (findIter (amazonMatchers.getD i (fun _ => none)) 0 text).map (fun pr =>
      { url := addProto (cleanUrl ((text.drop pr.1).take pr.2)),
        start := pr.1, ending := pr.1 + pr.2, patIdx := i }))

/-- De-duplication by URL string, preserving first-occurrence order
(lines 245-250). -/
def dedupe : List LinkInfo → List Str → List LinkInfo
  | [], _ => []
  | l :: t, seen =>
    if l.url ∈ seen then dedupe t seen else l :: dedupe t (l.url :: seen)

def uniqueLinks (text : Str) : List LinkInfo := dedupe (allLinks text) []

/-- `str.replace(old, new)` for nonempty `old`: all non-overlapping
occurrences, left to right; the first argument counts characters of a
just-replaced occurrence still to be skipped. -/
def replaceGo (old new : Str) : Nat → Str → Str
  | 0, [] => []
  | 0, c :: t =>
    if old.isPrefixOf (c :: t) then
      new ++ replaceGo old new (old.length - 1) t
    else c :: replaceGo old new 0 t
  | _ + 1, [] => []
  | b + 1, _ :: t => replaceGo old new b t

def replaceAll (s old new : Str) : Str :=
  if old = [] then new ++ s.flatMap (fun c => c :: new)
  else replaceGo old new 0 s

/-- The conversion loop of lines 255-275. -/
def processLinks (text tag searchUrl : Str) :
    List LinkInfo → Str × Nat → Str × Nat
  | [], acc => acc
  | l :: t, (ct, cnt) =>
    let conv := convertAmazonLink l.url tag searchUrl
    if conv ≠ l.url then
      let ct1 := replaceAll ct l.url conv
      let origInText := (text.drop l.start).take (l.ending - l.start)
      let ct2 :=
        if origInText ≠ l.url ∧ (origInText <:+: ct1) then
          replaceAll ct1 origInText conv
        else ct1
      processLinks text tag searchUrl t (ct2, cnt + 1)
    else processLinks text tag searchUrl t (ct, cnt)

/-- `convert_all_links` of `bot.py` (lines 178-278). -/
def convertAllLinks (text tag searchUrl : Str) : Str × Nat :=
  if text = [] then (text, 0)
  else processLinks text tag searchUrl (uniqueLinks text) (text, 0)

/-- `convert_all_links` at the public interface, where the message may also
be `None`: `if not text` accepts both `None` and the empty string. -/
def convertAllLinksOpt (text : Option Str) (tag searchUrl : Str) :
    Option Str × Nat :=
  match text with
  | none => (none, 0)
  | some t =>
    let r := convertAllLinks t tag searchUrl
    (some r.1, r.2)

/-! Scheduling subsystem.  Modelled from the spec: the Schedule Store and
Dispatcher (spec sections 3, 4.2) are part of this repository's other
variants and are not present in `src/bot.py`; the model below follows the
spec's words: durable records with status `pending / sent / failed /
cancelled`, in-memory timers lost on restart, a startup recovery sweep that
re-registers timers for every record still `pending` (delivering immediately
when `target_time` has already passed), and a dispatcher that transitions a
fired record `pending → sent` and logs exactly one delivery. -/

inductive PStatus where
  | pending
  | sent
  | failed
  | cancelled
deriving Repr, DecidableEq

structure SPost where
  pid : Nat
  target : Nat
  status : PStatus
deriving Repr, DecidableEq

structure SState where
  store : List SPost
  timers : List Nat
  log : List (Nat × Nat)
deriving Repr, DecidableEq

/-- Modelled from the spec: the startup recovery sweep queries the store for
all `pending` records and resumes a timer for every one of them. -/
def recoverySweep (s : SState) : SState :=
  { s with timers := (s.store.filter (fun p => p.status = PStatus.pending)).map SPost.pid }

/-- Modelled from the spec: a process restart discards the in-memory timers,
then the fresh process runs the recovery sweep. -/
def restartProc (s : SState) : SState :=
  recoverySweep { s with timers := [] }

/-- Whether a record fires at time `now`: its timer is registered, it is
still `pending` and its target time has been reached. -/
def firesAt (now : Nat) (timers : List Nat) (p : SPost) : Bool :=
  p.pid ∈ timers ∧ p.status = PStatus.pending ∧ p.target ≤ now

/-- Modelled from the spec: the dispatch protocol at wall-clock `now`
delivers every due pending record with a registered timer exactly once,
transitions it to `sent`, removes its timer and appends one log entry. -/
def dispatchDue (now : Nat) (s : SState) : SState :=
  { store := s.store.map (fun p =>
      if firesAt now s.timers p then { p with status := PStatus.sent } else p),
    timers := s.timers.filter (fun i =>
      ¬ s.store.any (fun p => p.pid = i ∧ firesAt now s.timers p)),
    log := s.log ++ (s.store.filter (firesAt now s.timers)).map
      (fun p => (p.pid, now)) }

def plusFun (c : Char) : Char := if c = '+' then ' ' else c

def pchunk (c : Char) : Str :=
  if isSafeQ c then [c]
  else if c = ' ' then [' ']
  else (utf8Enc c).flatMap pctByte

def tokChunk (c : Char) : List Tok :=
  if isSafeQ c then [.lit c]
  else if c = ' ' then [.lit ' ']
  else (utf8Enc c).map .byte

/-- Characters that can occur in `quote_plus` output. -/
def qTame (c : Char) : Bool :=
  isSafeQ c || c = '+' || c = '%' || ('0' ≤ c ∧ c ≤ '9') || ('A' ≤ c ∧ c ≤ 'F')

def encPair (kv : Str × Str) : Str := quotePlus kv.1 ++ '=' :: quotePlus kv.2

def pairsOf (d : List (Str × List Str)) : List (Str × Str) :=
  d.flatMap (fun p => p.2.map (fun v => (p.1, v)))

def keysOf (d : List (Str × List Str)) : List Str := d.map Prod.fst

def catalogHit (s : Str) : Prop :=
  containsCI s "amazon".data ∨ containsCI s "amzn.to".data ∨ containsCI s "a.co".data

theorem charValid (c : Char) :
    c.toNat < 0xd800 ∨ (0xdfff < c.toNat ∧ c.toNat < 0x110000) := c.valid

theorem utf8DecGo_skip (b : Nat) (bs : List Nat) (k : Nat) :
    utf8DecGo (k + 1) (b :: bs) = utf8DecGo k bs := rfl

theorem utf8DecGo_cons (b : Nat) (bs : List Nat) :
    utf8DecGo 0 (b :: bs) = (utf8Step b bs).1 :: utf8DecGo (utf8Step b bs).2 bs := rfl

theorem utf8Step_one (b : Nat) (bs : List Nat) (h : b < 0x80) :
    utf8Step b bs = (Char.ofNat b, 0) := by
  simp [utf8Step, h]

theorem utf8Step_two (b b1 : Nat) (bs : List Nat) (hb : 0xC2 ≤ b ∧ b ≤ 0xDF)
    (hc : isCont b1 = true) :
    utf8Step b (b1 :: bs) = (Char.ofNat ((b - 0xC0) * 64 + (b1 - 0x80)), 1) := by
  have hb' : ¬ b < 0x80 := by omega
  simp [utf8Step, hb', hb, hc]

theorem utf8Step_three (b b1 b2 : Nat) (bs : List Nat) (hb : 0xE0 ≤ b ∧ b ≤ 0xEF)
    (hc : cont1Ok3 b b1 = true) (hc2 : isCont b2 = true) :
    utf8Step b (b1 :: b2 :: bs) =
      (Char.ofNat ((b - 0xE0) * 4096 + (b1 - 0x80) * 64 + (b2 - 0x80)), 2) := by
  have h1 : ¬ b < 0x80 := by omega
  have h2 : ¬ (0xC2 ≤ b ∧ b ≤ 0xDF) := by omega
  simp [utf8Step, h1, h2, hb, hc, hc2]

theorem utf8Step_four (b b1 b2 b3 : Nat) (bs : List Nat) (hb : 0xF0 ≤ b ∧ b ≤ 0xF4)
    (hc : cont1Ok4 b b1 = true) (hc2 : isCont b2 = true) (hc3 : isCont b3 = true) :
    utf8Step b (b1 :: b2 :: b3 :: bs) =
      (Char.ofNat ((b - 0xF0) * 262144 + (b1 - 0x80) * 4096 +
        (b2 - 0x80) * 64 + (b3 - 0x80)), 3) := by
  have h1 : ¬ b < 0x80 := by omega
  have h2 : ¬ (0xC2 ≤ b ∧ b ≤ 0xDF) := by omega
  have h3 : ¬ (0xE0 ≤ b ∧ b ≤ 0xEF) := by omega
  simp [utf8Step, h1, h2, h3, hb, hc, hc2, hc3]

theorem utf8DecGo_enc (c : Char) (R : List Nat) :
    utf8DecGo 0 (utf8Enc c ++ R) = c :: utf8DecGo 0 R := by
  have hv := charValid c
  have hofn := Char.ofNat_toNat c
  by_cases h1 : c.toNat < 0x80
  · have he : utf8Enc c = [c.toNat] := by rw [utf8Enc, if_pos h1]
    rw [he, List.cons_append, List.nil_append, utf8DecGo_cons,
      utf8Step_one _ _ h1, hofn]
  · by_cases h2 : c.toNat < 0x800
    · have he : utf8Enc c = [0xC0 + c.toNat / 64, 0x80 + c.toNat % 64] := by
        rw [utf8Enc, if_neg h1, if_pos h2]
      rw [he]
      show utf8DecGo 0 (_ :: _ :: R) = _
      rw [utf8DecGo_cons, utf8Step_two _ _ _ (by omega)
        (by simp only [isCont, decide_eq_true_eq]; omega)]
      have harith : (0xC0 + c.toNat / 64 - 0xC0) * 64 + (0x80 + c.toNat % 64 - 0x80)
          = c.toNat := by omega
      rw [harith, hofn]
      rfl
    · by_cases h3 : c.toNat < 0x10000
      · have he : utf8Enc c = [0xE0 + c.toNat / 4096, 0x80 + (c.toNat / 64) % 64,
            0x80 + c.toNat % 64] := by
          rw [utf8Enc, if_neg h1, if_neg h2, if_pos h3]
        rw [he]
        show utf8DecGo 0 (_ :: _ :: _ :: R) = _
        have hcont1 : cont1Ok3 (0xE0 + c.toNat / 4096) (0x80 + (c.toNat / 64) % 64)
            = true := by
          simp only [cont1Ok3, isCont]
          split
          · simp only [decide_eq_true_eq]
            omega
          · split
            · simp only [decide_eq_true_eq]
              omega
            · simp only [decide_eq_true_eq]
              omega
        rw [utf8DecGo_cons, utf8Step_three _ _ _ _ (by omega) hcont1
          (by simp only [isCont, decide_eq_true_eq]; omega)]
        have harith : (0xE0 + c.toNat / 4096 - 0xE0) * 4096 +
            (0x80 + (c.toNat / 64) % 64 - 0x80) * 64 + (0x80 + c.toNat % 64 - 0x80)
            = c.toNat := by omega
        rw [harith, hofn]
        rfl
      · have he : utf8Enc c = [0xF0 + c.toNat / 262144, 0x80 + (c.toNat / 4096) % 64,
            0x80 + (c.toNat / 64) % 64, 0x80 + c.toNat % 64] := by
          rw [utf8Enc, if_neg h1, if_neg h2, if_neg h3]
        rw [he]
        show utf8DecGo 0 (_ :: _ :: _ :: _ :: R) = _
        have hcont1 : cont1Ok4 (0xF0 + c.toNat / 262144) (0x80 + (c.toNat / 4096) % 64)
            = true := by
          simp only [cont1Ok4, isCont]
          split
          · simp only [decide_eq_true_eq]
            omega
          · split
            · simp only [decide_eq_true_eq]
              omega
            · simp only [decide_eq_true_eq]
              omega
        rw [utf8DecGo_cons, utf8Step_four _ _ _ _ _ (by omega) hcont1
          (by simp only [isCont, decide_eq_true_eq]; omega)
          (by simp only [isCont, decide_eq_true_eq]; omega)]
        have harith : (0xF0 + c.toNat / 262144 - 0xF0) * 262144 +
            (0x80 + (c.toNat / 4096) % 64 - 0x80) * 4096 +
            (0x80 + (c.toNat / 64) % 64 - 0x80) * 64 + (0x80 + c.toNat % 64 - 0x80)
            = c.toNat := by omega
        rw [harith, hofn]
        rfl
theorem hexVal_hexDigitU (n : Nat) (h : n < 16) : hexVal (hexDigitU n) = some n := by
  interval_cases n <;> decide
theorem hexDigitU_ne_plus (n : Nat) (h : n < 16) : hexDigitU n ≠ '+' := by
  interval_cases n <;> decide
theorem plusFun_pct (b : Nat) (hb : b < 256) :
    (pctByte b).map plusFun = pctByte b := by
  have h1 : b / 16 < 16 := by omega
  have h2 : b % 16 < 16 := by omega
  simp [pctByte, plusFun, hexDigitU_ne_plus _ h1, hexDigitU_ne_plus _ h2]
theorem utf8Enc_lt (c : Char) : ∀ b ∈ utf8Enc c, b < 256 := by
  intro b hb
  have hv := charValid c
  rw [utf8Enc] at hb
  split at hb <;> [skip; (split at hb <;> [skip; (split at hb <;> [skip; skip])])] <;>
    simp at hb <;> omega

theorem flatMap_plusFun (bs : List Nat) (h : ∀ b ∈ bs, b < 256) :
    bs.flatMap (fun b => (pctByte b).map plusFun) = bs.flatMap pctByte := by
  induction bs with
  | nil => rfl
  | cons b t ih =>
    simp only [List.flatMap_cons]
    rw [plusFun_pct b (h b (by simp)), ih (fun x hx => h x (by simp [hx]))]

theorem plusMap_quote (s : Str) :
    (quotePlus s).map plusFun = s.flatMap pchunk := by
  induction s with
  | nil => rfl
  | cons c t ih =>
    show ((qchunk c ++ quotePlus t).map plusFun) = pchunk c ++ t.flatMap pchunk
    rw [List.map_append, ih]
    congr 1
    rw [qchunk, pchunk]
    split
    · rename_i hs
      have : c ≠ '+' := by rintro rfl; exact absurd hs (by decide)
      simp [plusFun, this]
    · split
      · simp [plusFun]
      · rw [List.map_flatMap]
        exact flatMap_plusFun _ (utf8Enc_lt c)

theorem tokenize_lit (c : Char) (r : Str) (hc : c ≠ '%') :
    tokenize (c :: r) = .lit c :: tokenize r := by
  rcases r with _ | ⟨h, _ | ⟨l, rest⟩⟩
  · rfl
  · rfl
  · simp [tokenize, hc]

theorem tokenize_pct (b : Nat) (hb : b < 256) (r : Str) :
    tokenize (pctByte b ++ r) = .byte b :: tokenize r := by
  have h1 : b / 16 < 16 := by omega
  have h2 : b % 16 < 16 := by omega
  rcases r with _ | ⟨x, _ | ⟨y, rest⟩⟩ <;>
    simp [pctByte, tokenize, hexVal_hexDigitU _ h1, hexVal_hexDigitU _ h2] <;>
    omega


theorem tokenize_pcts (bs : List Nat) (h : ∀ b ∈ bs, b < 256) (r : Str) :
    tokenize (bs.flatMap pctByte ++ r) = bs.map .byte ++ tokenize r := by
  induction bs with
  | nil => rfl
  | cons b t ih =>
    simp only [List.flatMap_cons, List.map_cons, List.append_assoc]
    rw [tokenize_pct b (h b (by simp)), ih (fun x hx => h x (by simp [hx]))]
    rfl

theorem tokenize_flat (s : Str) :
    tokenize (s.flatMap pchunk) = s.flatMap tokChunk := by
  induction s with
  | nil => rfl
  | cons c t ih =>
    simp only [List.flatMap_cons]
    rw [pchunk, tokChunk]
    split
    · rename_i hs
      have hne : c ≠ '%' := by rintro rfl; exact absurd hs (by decide)
      simpa [tokenize_lit c _ hne] using congrArg (Tok.lit c :: ·) ih
    · split
      · simpa [tokenize_lit ' ' _ (by decide)] using congrArg (Tok.lit ' ' :: ·) ih
      · rw [tokenize_pcts _ (utf8Enc_lt c), ih]

theorem utf8Dec_flat (cs : List Char) :
    utf8Dec (cs.flatMap utf8Enc) = cs := by
  induction cs with
  | nil => rfl
  | cons c t ih =>
    simp only [List.flatMap_cons, utf8Dec] at *
    rw [utf8DecGo_enc, ih]

theorem detokGo_bytes (buf bs : List Nat) (ts : List Tok) :
    detokGo buf (bs.map .byte ++ ts) = detokGo (buf ++ bs) ts := by
  induction bs generalizing buf with
  | nil => simp
  | cons b t ih =>
    simp only [List.map_cons, List.cons_append, detokGo, List.append_eq]
    rw [ih]
    simp

theorem detokGo_flat (s : Str) (cs : List Char) :
    detokGo (cs.flatMap utf8Enc) (s.flatMap tokChunk) = cs ++ s := by
  induction s generalizing cs with
  | nil =>
    show utf8Dec (cs.flatMap utf8Enc) = cs ++ []
    rw [utf8Dec_flat, List.append_nil]
  | cons c t ih =>
    simp only [List.flatMap_cons]
    rw [tokChunk]
    split
    · show utf8Dec (cs.flatMap utf8Enc) ++ c :: detokGo [] (t.flatMap tokChunk) = _
      have := ih ([] : List Char)
      simp only [List.flatMap_nil] at this
      rw [utf8Dec_flat, this]
      simp
    · split
      · rename_i hs hsp
        subst hsp
        show utf8Dec (cs.flatMap utf8Enc) ++ ' ' :: detokGo [] (t.flatMap tokChunk) = _
        have := ih ([] : List Char)
        simp only [List.flatMap_nil] at this
        rw [utf8Dec_flat, this]
        simp
      · rw [detokGo_bytes]
        have harr : cs.flatMap utf8Enc ++ utf8Enc c = (cs ++ [c]).flatMap utf8Enc := by
          simp
        rw [harr, ih (cs ++ [c])]
        simp

/-- Round trip: decoding after encoding is the identity (the key property of
`quote_plus` / `unquote_plus` on every string). -/
theorem unquote_quote (s : Str) : unquotePlus (quotePlus s) = s := by
  show unquote ((quotePlus s).map (fun c => if c = '+' then ' ' else c)) = s
  have hpm : (quotePlus s).map (fun c => if c = '+' then ' ' else c)
      = s.flatMap pchunk := plusMap_quote s
  rw [hpm]
  show detokGo [] (tokenize (s.flatMap pchunk)) = s
  rw [tokenize_flat]
  have := detokGo_flat s ([] : List Char)
  simpa using this




theorem hexDigitU_tame (n : Nat) (h : n < 16) : qTame (hexDigitU n) = true := by
  interval_cases n <;> decide

theorem quotePlus_tame (s : Str) : ∀ c ∈ quotePlus s, qTame c = true := by
  intro c hc
  induction s with
  | nil => simp [quotePlus] at hc
  | cons x t ih =>
    rw [show quotePlus (x :: t) = qchunk x ++ quotePlus t from rfl] at hc
    rcases List.mem_append.1 hc with h | h
    · rw [qchunk] at h
      split at h
      · rename_i hs
        simp at h
        subst h
        simp [qTame, hs]
      · split at h
        · simp at h
          subst h
          decide
        · rcases List.mem_flatMap.1 h with ⟨b, hb, hcb⟩
          have hlt : b < 256 := utf8Enc_lt x b hb
          rw [pctByte] at hcb
          have hcb2 : c = '%' ∨ c = hexDigitU (b / 16) ∨ c = hexDigitU (b % 16) := by
            simpa using hcb
          rcases hcb2 with h1 | h1 | h1
          · subst h1; decide
          · subst h1; exact hexDigitU_tame _ (by omega)
          · subst h1; exact hexDigitU_tame _ (by omega)
    · exact ih h

theorem quotePlus_ne_nil (s : Str) (h : s ≠ []) : quotePlus s ≠ [] := by
  rcases s with _ | ⟨c, t⟩
  · exact absurd rfl h
  · show qchunk c ++ quotePlus t ≠ []
    rw [qchunk]
    split
    · simp
    · split
      · simp
      · have h2 : ∃ b r, utf8Enc c = b :: r := by
          rw [utf8Enc]
          split
          · exact ⟨_, _, rfl⟩
          · split
            · exact ⟨_, _, rfl⟩
            · split
              · exact ⟨_, _, rfl⟩
              · exact ⟨_, _, rfl⟩
        obtain ⟨b, r, hbr⟩ := h2
        rw [hbr]
        simp [pctByte]

theorem splitFirst_not_mem (c : Char) (s : Str) (h : c ∉ s) : splitFirst c s = none := by
  induction s with
  | nil => rfl
  | cons x t ih =>
    rw [splitFirst]
    rw [if_neg (by intro hx; exact h (hx ▸ List.mem_cons_self x t))]
    rw [ih (fun hm => h (List.mem_cons_of_mem x hm))]
    rfl

theorem splitFirst_app (c : Char) (a b : Str) (h : c ∉ a) :
    splitFirst c (a ++ c :: b) = some (a, b) := by
  induction a with
  | nil => simp [splitFirst]
  | cons x t ih =>
    rw [List.cons_append, splitFirst]
    rw [if_neg (by intro hx; exact h (hx ▸ List.mem_cons_self x t))]
    rw [ih (fun hm => h (List.mem_cons_of_mem x hm))]
    rfl

theorem splitOnChar_not_mem (c : Char) (s : Str) (h : c ∉ s) :
    splitOnChar c s = [s] := by
  induction s with
  | nil => rfl
  | cons x t ih =>
    rw [splitOnChar]
    rw [if_neg (by intro hx; exact h (hx ▸ List.mem_cons_self x t))]
    rw [ih (fun hm => h (List.mem_cons_of_mem x hm))]

theorem splitOnChar_app (c : Char) (p r : Str) (h : c ∉ p) :
    splitOnChar c (p ++ c :: r) = p :: splitOnChar c r := by
  induction p with
  | nil => simp [splitOnChar]
  | cons x t ih =>
    rw [List.cons_append, splitOnChar]
    rw [if_neg (by intro hx; exact h (hx ▸ List.mem_cons_self x t))]
    rw [ih (fun hm => h (List.mem_cons_of_mem x hm))]

/-- One encoded `key=value` piece of `urlencode` output. -/

theorem encPair_no_amp (kv : Str × Str) : '&' ∉ encPair kv := by
  intro hm
  rcases List.mem_append.1 hm with h | h
  · have := quotePlus_tame kv.1 '&' h
    simp [qTame, isSafeQ, isAlnumA, isAsciiAlpha, isAsciiDigit] at this
  · rcases List.mem_cons.1 h with h1 | h1
    · exact absurd h1 (by decide)
    · have := quotePlus_tame kv.2 '&' h1
      simp [qTame, isSafeQ, isAlnumA, isAsciiAlpha, isAsciiDigit] at this

theorem quotePlus_no_eq (s : Str) : '=' ∉ quotePlus s := by
  intro hm
  have := quotePlus_tame s '=' hm
  simp [qTame, isSafeQ, isAlnumA, isAsciiAlpha, isAsciiDigit] at this

theorem qslPiece_enc (kv : Str × Str) (hv : kv.2 ≠ []) :
    qslPiece (encPair kv) = some kv := by
  rw [qslPiece, if_neg (by simp [encPair])]
  rw [show encPair kv = quotePlus kv.1 ++ '=' :: quotePlus kv.2 from rfl]
  rw [splitFirst_app _ _ _ (quotePlus_no_eq kv.1)]
  show (if quotePlus kv.2 = [] then none
    else some (unquotePlus (quotePlus kv.1), unquotePlus (quotePlus kv.2))) = some kv
  rw [if_neg (quotePlus_ne_nil kv.2 hv)]
  rw [unquote_quote, unquote_quote]

theorem parseQsl_enc (L : List (Str × Str)) (hv : ∀ kv ∈ L, kv.2 ≠ []) :
    parseQsl (intercalateC '&' (L.map encPair)) = L := by
  induction L with
  | nil => rfl
  | cons kv t ih =>
    have hpiece := qslPiece_enc kv (hv kv (by simp))
    rcases t with _ | ⟨kv2, t2⟩
    · show parseQsl (encPair kv) = [kv]
      rw [parseQsl, splitOnChar_not_mem '&' _ (encPair_no_amp kv)]
      simp only [List.filterMap_cons, List.filterMap_nil, hpiece]
    · show parseQsl (encPair kv ++ '&' :: intercalateC '&' ((kv2 :: t2).map encPair)) = _
      rw [parseQsl, splitOnChar_app _ _ _ (encPair_no_amp kv)]
      have iht := ih (fun x hx => hv x (List.mem_cons_of_mem _ hx))
      rw [parseQsl] at iht
      simp only [List.filterMap_cons, hpiece]
      rw [iht]

/-- The flat pair sequence a params dict generates. -/


theorem keysOf_append (a b : List (Str × List Str)) :
    keysOf (a ++ b) = keysOf a ++ keysOf b := by
  simp [keysOf]

theorem urlencode_eq (d : List (Str × List Str)) :
    urlencode d = intercalateC '&' ((pairsOf d).map encPair) := by
  have h : (d.flatMap fun p => List.map (fun v => quotePlus p.1 ++ '=' :: quotePlus v) p.2)
      = (pairsOf d).map encPair := by
    rw [pairsOf, List.map_flatMap]
    induction d with
    | nil => rfl
    | cons p t ih =>
      simp only [List.flatMap_cons, ih]
      congr 1
      rw [List.map_map]
      rfl
  rw [urlencode, h]

theorem parseQsl_urlencode (d : List (Str × List Str))
    (hv : ∀ p ∈ d, ∀ v ∈ p.2, v ≠ []) :
    parseQsl (urlencode d) = pairsOf d := by
  rw [urlencode_eq]
  refine parseQsl_enc _ ?_
  intro kv hkv
  rcases List.mem_flatMap.1 hkv with ⟨p, hp, hkv2⟩
  rcases List.mem_map.1 hkv2 with ⟨v, hvv, hkv3⟩
  subst hkv3
  exact hv p hp v hvv

theorem addPair_notin (acc : List (Str × List Str)) (k : Str) (v : Str)
    (h : k ∉ keysOf acc) : addPair acc k v = acc ++ [(k, [v])] := by
  induction acc with
  | nil => rfl
  | cons p t ih =>
    rw [addPair]
    rw [if_neg (by intro he; exact h (by simp [keysOf, he]))]
    rw [ih (by intro hm; exact h (by simp [keysOf] at hm ⊢; exact Or.inr hm))]
    rfl

theorem addPair_found_last (acc : List (Str × List Str)) (k : Str) (vs : List Str)
    (v : Str) (h : k ∉ keysOf acc) :
    addPair (acc ++ [(k, vs)]) k v = acc ++ [(k, vs ++ [v])] := by
  induction acc with
  | nil => simp [addPair]
  | cons p t ih =>
    rw [List.cons_append, addPair]
    rw [if_neg (by intro he; exact h (by simp [keysOf, he]))]
    rw [ih (by intro hm; exact h (by simp [keysOf] at hm ⊢; exact Or.inr hm))]
    rfl

theorem foldl_addPair_run (vs : List Str) (acc : List (Str × List Str)) (k : Str)
    (cur : List Str) (h : k ∉ keysOf acc) :
    (vs.map (fun v => (k, v))).foldl (fun d p => addPair d p.1 p.2)
      (acc ++ [(k, cur)]) = acc ++ [(k, cur ++ vs)] := by
  induction vs generalizing cur with
  | nil => simp
  | cons v t ih =>
    simp only [List.map_cons, List.foldl_cons]
    rw [addPair_found_last acc k cur v h, ih (cur ++ [v])]
    simp

theorem foldl_addPair_pairs (d : List (Str × List Str)) (acc : List (Str × List Str))
    (hdisj : ∀ kk ∈ keysOf d, kk ∉ keysOf acc)
    (hnd : (keysOf d).Nodup) (hne : ∀ p ∈ d, p.2 ≠ []) :
    (pairsOf d).foldl (fun dd p => addPair dd p.1 p.2) acc = acc ++ d := by
  induction d generalizing acc with
  | nil => simp [pairsOf]
  | cons p t ih =>
    rw [pairsOf, List.flatMap_cons, List.foldl_append]
    have hk : p.1 ∉ keysOf acc := hdisj p.1 (by simp [keysOf])
    rcases p with ⟨k, vs⟩
    have hndc : k ∉ keysOf t ∧ (keysOf t).Nodup := by
      rw [show keysOf ((k, vs) :: t) = k :: keysOf t from rfl] at hnd
      exact List.nodup_cons.mp hnd
    rcases vs with _ | ⟨v, vt⟩
    · exact absurd rfl (hne (k, []) (by simp))
    · simp only [List.map_cons, List.foldl_cons]
      rw [addPair_notin acc k v hk]
      rw [foldl_addPair_run vt acc k [v] hk]
      have ihx := ih (acc ++ [(k, [v] ++ vt)])
        (by
          intro kk hkk
          rw [keysOf_append]
          rw [List.mem_append]
          rintro (hmem | hmem)
          · exact hdisj kk (by simp [keysOf] at hkk ⊢; exact Or.inr hkk) hmem
          · simp [keysOf] at hmem
            rw [hmem] at hkk
            exact hndc.1 hkk)
        hndc.2
        (fun q hq => hne q (List.mem_cons_of_mem _ hq))
      rw [show pairsOf t = t.flatMap (fun q => q.2.map (fun v => (q.1, v))) from rfl] at ihx
      rw [ihx]
      simp

theorem parseQs_urlencode (d : List (Str × List Str))
    (hnd : (keysOf d).Nodup) (hne : ∀ p ∈ d, p.2 ≠ [])
    (hv : ∀ p ∈ d, ∀ v ∈ p.2, v ≠ []) :
    parseQs (urlencode d) = d := by
  rw [parseQs, parseQsl_urlencode d hv]
  have := foldl_addPair_pairs d [] (by intro kk _ hm; simp [keysOf] at hm) hnd hne
  simpa using this

theorem hasKey_iff (d : List (Str × List Str)) (k : Str) :
    hasKey d k = true ↔ k ∈ keysOf d := by
  induction d with
  | nil => simp [hasKey, keysOf]
  | cons p t ih =>
    simp only [hasKey, List.any_cons, keysOf, List.map_cons, List.mem_cons]
    rw [hasKey] at ih
    simp only [keysOf] at ih
    constructor
    · intro h
      rcases Bool.or_eq_true_iff.mp h with h1 | h1
      · exact Or.inl (by simpa [eq_comm] using of_decide_eq_true h1)
      · exact Or.inr (ih.1 h1)
    · rintro (h1 | h1)
      · exact Bool.or_eq_true_iff.mpr (Or.inl (decide_eq_true h1.symm))
      · exact Bool.or_eq_true_iff.mpr (Or.inr (ih.2 h1))

theorem delKey_sublist (d : List (Str × List Str)) (k : Str) :
    List.Sublist (delKey d k) d := by
  induction d with
  | nil => simp [delKey]
  | cons p t ih =>
    rw [delKey]
    split
    · exact (List.sublist_cons_self p t)
    · exact List.Sublist.cons₂ p ih

theorem delKey_not_mem (d : List (Str × List Str)) (k : Str)
    (hnd : (keysOf d).Nodup) : k ∉ keysOf (delKey d k) := by
  induction d with
  | nil => simp [delKey, keysOf]
  | cons p t ih =>
    rw [show keysOf (p :: t) = p.1 :: keysOf t from rfl] at hnd
    have hc := List.nodup_cons.mp hnd
    rw [delKey]
    split
    · rename_i he
      subst he
      simpa [keysOf] using hc.1
    · rename_i he
      intro hm
      simp only [keysOf, List.map_cons, List.mem_cons] at hm
      rcases hm with h1 | h1
      · exact he h1.symm
      · exact ih (by simpa [keysOf] using hc.2) h1

theorem delKey_mem (d : List (Str × List Str)) (k : Str) (p : Str × List Str)
    (h : p ∈ delKey d k) : p ∈ d := by
  exact (delKey_sublist d k).mem h

theorem setKey_notin (d : List (Str × List Str)) (k : Str) (v : List Str)
    (h : k ∉ keysOf d) : setKey d k v = d ++ [(k, v)] := by
  induction d with
  | nil => rfl
  | cons p t ih =>
    rw [setKey]
    rw [if_neg (by intro he; exact h (by simp [keysOf, he]))]
    rw [ih (by intro hm; exact h (by simp [keysOf] at hm ⊢; exact Or.inr hm))]
    rfl

theorem retag_decomp (d : List (Str × List Str)) (tag : Str)
    (hnd : (keysOf d).Nodup) :
    ∃ d0, retag d tag = d0 ++ [(tagKey, [tag])] ∧ List.Sublist d0 d ∧ tagKey ∉ keysOf d0 := by
  rw [retag]
  by_cases hk : hasKey d tagKey
  · refine ⟨delKey d tagKey, ?_, delKey_sublist d tagKey, delKey_not_mem d tagKey hnd⟩
    rw [if_pos hk, setKey_notin _ _ _ (delKey_not_mem d tagKey hnd)]
  · have hnm : tagKey ∉ keysOf d := fun hm => hk ((hasKey_iff d tagKey).mpr hm)
    refine ⟨d, ?_, List.Sublist.refl d, hnm⟩
    rw [if_neg hk, setKey_notin _ _ _ hnm]

theorem keysOf_sublist (a b : List (Str × List Str)) (h : List.Sublist a b) :
    List.Sublist (keysOf a) (keysOf b) := List.Sublist.map Prod.fst h

theorem pairsOf_append (a b : List (Str × List Str)) :
    pairsOf (a ++ b) = pairsOf a ++ pairsOf b := by
  simp [pairsOf]

theorem pairsOf_key_mem (d : List (Str × List Str)) (kv : Str × Str)
    (h : kv ∈ pairsOf d) : kv.1 ∈ keysOf d := by
  rcases List.mem_flatMap.1 h with ⟨p, hp, hkv⟩
  rcases List.mem_map.1 hkv with ⟨v, _, hkv2⟩
  subst hkv2
  simp only [keysOf]
  exact List.mem_map.mpr ⟨p, hp, rfl⟩

theorem filter_tag_pairs (d0 : List (Str × List Str)) (tag : Str)
    (h : tagKey ∉ keysOf d0) :
    (pairsOf (d0 ++ [(tagKey, [tag])])).filter (fun kv => kv.1 = tagKey)
      = [(tagKey, tag)] := by
  rw [pairsOf_append, List.filter_append]
  have h1 : (pairsOf d0).filter (fun kv => kv.1 = tagKey) = [] := by
    rw [List.filter_eq_nil_iff]
    intro kv hkv hdec
    exact h (of_decide_eq_true hdec ▸ pairsOf_key_mem d0 kv hkv)
  rw [h1]
  rfl

theorem utf8DecGo_zero_ne_nil (b : Nat) (bs : List Nat) :
    utf8DecGo 0 (b :: bs) ≠ [] := by
  rw [utf8DecGo]
  simp

theorem detokGo_ne_nil (ts : List Tok) (buf : List Nat) :
    buf ≠ [] ∨ ts ≠ [] → detokGo buf ts ≠ [] := by
  induction ts generalizing buf with
  | nil =>
    rintro (h | h)
    · rcases buf with _ | ⟨b, bs⟩
      · exact absurd rfl h
      · exact utf8DecGo_zero_ne_nil b bs
    · exact absurd rfl h
  | cons t ts ih =>
    intro _
    rcases t with c | b
    · rw [detokGo]
      simp
    · rw [detokGo]
      exact ih (buf ++ [b]) (Or.inl (by simp))

theorem tokenize_ne_nil (s : Str) (h : s ≠ []) : tokenize s ≠ [] := by
  rcases s with _ | ⟨c, _ | ⟨x, _ | ⟨y, r⟩⟩⟩
  · exact absurd rfl h
  · simp [tokenize]
  · simp [tokenize]
  · rw [tokenize]
    split
    · split <;> simp
    · simp

theorem unquotePlus_ne_nil (s : Str) (h : s ≠ []) : unquotePlus s ≠ [] := by
  rw [unquotePlus, unquote]
  refine detokGo_ne_nil _ [] (Or.inr ?_)
  apply tokenize_ne_nil
  simpa using h

theorem parseQsl_val_ne (qs : Str) : ∀ kv ∈ parseQsl qs, kv.2 ≠ [] := by
  intro kv hkv
  rcases List.mem_filterMap.1 hkv with ⟨nv, _, hpc⟩
  rw [qslPiece] at hpc
  split at hpc
  · exact absurd hpc (by simp)
  · split at hpc
    · exact absurd hpc (by simp)
    · rename_i n v heq
      split at hpc
      · exact absurd hpc (by simp)
      · rename_i hvne
        have := Option.some_injective _ hpc
        subst this
        exact unquotePlus_ne_nil v hvne

theorem addPair_inv (d : List (Str × List Str)) (k : Str) (v : Str)
    (hd : ∀ p ∈ d, p.2 ≠ [] ∧ ∀ x ∈ p.2, x ≠ []) (hv : v ≠ []) :
    ∀ p ∈ addPair d k v, p.2 ≠ [] ∧ ∀ x ∈ p.2, x ≠ [] := by
  induction d with
  | nil =>
    intro p hp
    rw [addPair] at hp
    rcases List.mem_singleton.mp hp with rfl
    exact ⟨by simp, by intro x hx; rcases List.mem_singleton.mp hx with rfl; exact hv⟩
  | cons q t ih =>
    intro p hp
    rw [addPair] at hp
    split at hp
    · rcases List.mem_cons.1 hp with rfl | hm
      · refine ⟨by simp, ?_⟩
        intro x hx
        rcases List.mem_append.1 hx with h1 | h1
        · exact (hd q (by simp)).2 x h1
        · rcases List.mem_singleton.mp h1 with rfl
          exact hv
      · exact hd p (by simp [hm])
    · rcases List.mem_cons.1 hp with rfl | hm
      · exact hd _ (by simp)
      · exact ih (fun z hz => hd z (by simp [hz])) p hm

theorem addPair_keys (d : List (Str × List Str)) (k : Str) (v : Str) :
    keysOf (addPair d k v) = if k ∈ keysOf d then keysOf d else keysOf d ++ [k] := by
  induction d with
  | nil => simp [addPair, keysOf]
  | cons p t ih =>
    rw [addPair]
    split
    · rename_i he
      rw [if_pos (by simp [keysOf, he])]
      simp [keysOf]
    · rename_i he
      show p.1 :: keysOf (addPair t k v) = _
      rw [ih]
      have hiff : (k ∈ keysOf (p :: t)) ↔ (k ∈ keysOf t) := by
        simp only [keysOf, List.map_cons, List.mem_cons]
        constructor
        · rintro (h1 | h1)
          · exact absurd h1.symm he
          · exact h1
        · exact Or.inr
      by_cases hm : k ∈ keysOf t
      · rw [if_pos hm, if_pos (hiff.mpr hm)]
        rfl
      · rw [if_neg hm, if_neg (fun hc => hm (hiff.mp hc))]
        rfl

theorem addPair_nodup (d : List (Str × List Str)) (k : Str) (v : Str)
    (h : (keysOf d).Nodup) : (keysOf (addPair d k v)).Nodup := by
  rw [addPair_keys]
  split
  · exact h
  · rename_i hm
    refine List.Nodup.append h (by simp) ?_
    intro a ha hb
    rcases List.mem_singleton.mp hb with rfl
    exact hm ha

theorem parseQs_nodup (qs : Str) : (keysOf (parseQs qs)).Nodup := by
  rw [parseQs]
  have hgen : ∀ (L : List (Str × Str)) (acc : List (Str × List Str)),
      (keysOf acc).Nodup →
      (keysOf (L.foldl (fun d p => addPair d p.1 p.2) acc)).Nodup := by
    intro L
    induction L with
    | nil => exact fun acc h => h
    | cons kv t ih =>
      intro acc hacc
      exact ih (addPair acc kv.1 kv.2) (addPair_nodup acc kv.1 kv.2 hacc)
  exact hgen (parseQsl qs) [] (by simp [keysOf])

theorem parseQs_inv (qs : Str) :
    ∀ p ∈ parseQs qs, p.2 ≠ [] ∧ ∀ x ∈ p.2, x ≠ [] := by
  rw [parseQs]
  have hgen : ∀ (L : List (Str × Str)) (acc : List (Str × List Str)),
      (∀ kv ∈ L, kv.2 ≠ []) →
      (∀ p ∈ acc, p.2 ≠ [] ∧ ∀ x ∈ p.2, x ≠ []) →
      ∀ p ∈ L.foldl (fun d p => addPair d p.1 p.2) acc, p.2 ≠ [] ∧ ∀ x ∈ p.2, x ≠ [] := by
    intro L
    induction L with
    | nil => exact fun acc _ h => h
    | cons kv t ih =>
      intro acc hL hacc
      exact ih (addPair acc kv.1 kv.2) (fun z hz => hL z (by simp [hz]))
        (addPair_inv acc kv.1 kv.2 hacc (hL kv (by simp)))
  exact hgen (parseQsl qs) [] (parseQsl_val_ne qs) (by simp)

theorem tw_all (p : Char → Bool) (xs ys : Str) (h : ∀ x ∈ xs, p x = true) :
    (xs ++ ys).takeWhile p = xs ++ ys.takeWhile p := by
  induction xs with
  | nil => rfl
  | cons x t ih =>
    rw [List.cons_append, List.takeWhile_cons, h x (by simp), ih (fun z hz => h z (by simp [hz]))]
    rfl

theorem dw_all (p : Char → Bool) (xs ys : Str) (h : ∀ x ∈ xs, p x = true) :
    (xs ++ ys).dropWhile p = ys.dropWhile p := by
  induction xs with
  | nil => rfl
  | cons x t ih =>
    rw [List.cons_append, List.dropWhile_cons, if_pos (h x (by simp)),
      ih (fun z hz => h z (by simp [hz]))]

theorem splitNetloc_built (D R : Str)
    (hD1 : ∀ c ∈ D, isNetlocDelim c = false)
    (hR : R = [] ∨ isNetlocDelim R.headI = true) :
    splitNetloc ('/' :: '/' :: (D ++ R)) = (D, R) := by
  rw [splitNetloc, if_pos (by simp)]
  have hpred : ∀ c ∈ D, (fun c => decide (¬ isNetlocDelim c = true)) c = true := by
    intro c hc
    simp [hD1 c hc]
  have htail : R.takeWhile (fun c => decide (¬ isNetlocDelim c = true)) = []
      ∧ R.dropWhile (fun c => decide (¬ isNetlocDelim c = true)) = R := by
    rcases hR with rfl | hh
    · exact ⟨rfl, rfl⟩
    · rcases R with _ | ⟨r, t⟩
      · exact ⟨rfl, rfl⟩
      · simp only [List.headI] at hh
        constructor
        · rw [List.takeWhile_cons]
          simp [hh]
        · rw [List.dropWhile_cons, if_neg (by simp [hh])]
  show ((D ++ R).takeWhile _, (D ++ R).dropWhile _) = (D, R)
  rw [tw_all _ D R hpred, dw_all _ D R hpred, htail.1, htail.2, List.append_nil]

/-- Parsing a URL assembled as `https://<netloc><path>?<query>`. -/
theorem urlparse_built (D P Q : Str)
    (hD1 : ∀ c ∈ D, isNetlocDelim c = false)
    (hD2 : bracketOk D = true)
    (hP1 : P = [] ∨ ∃ t, P = '/' :: t)
    (hP2 : '?' ∉ P)
    (hPh : '#' ∉ P) (hQh : '#' ∉ Q)
    (hT : ∀ c ∈ ("https://".data ++ D ++ P ++ '?' :: Q),
      ¬ (c = '\t' ∨ c = '\r' ∨ c = '\n')) :
    urlparse ("https://".data ++ D ++ P ++ '?' :: Q) =
      some ⟨"https".data, D,
        (if ';' ∈ P then (splitParamsSeg P).1 else P),
        (if ';' ∈ P then (splitParamsSeg P).2 else []), Q, []⟩ := by
  have hfil : ("https://".data ++ D ++ P ++ '?' :: Q).filter
      (fun c => ¬ (c = '\t' ∨ c = '\r' ∨ c = '\n'))
      = "https://".data ++ D ++ P ++ '?' :: Q := by
    rw [List.filter_eq_self]
    intro a ha
    simpa using hT a ha
  have hurl : "https://".data ++ D ++ P ++ '?' :: Q
      = "https".data ++ ':' :: ('/' :: '/' :: (D ++ (P ++ '?' :: Q))) := by
    simp
  have hsc : splitScheme ("https://".data ++ D ++ P ++ '?' :: Q)
      = ("https".data, '/' :: '/' :: (D ++ (P ++ '?' :: Q))) := by
    rw [hurl]
    rfl
  have hnl : splitNetloc ('/' :: '/' :: (D ++ (P ++ '?' :: Q))) = (D, P ++ '?' :: Q) := by
    refine splitNetloc_built D (P ++ '?' :: Q) hD1 ?_
    rcases hP1 with rfl | ⟨t, rfl⟩
    · exact Or.inr rfl
    · exact Or.inr rfl
  have hfr : splitAtChar '#' (P ++ '?' :: Q) = (P ++ '?' :: Q, []) := by
    rw [splitAtChar, splitFirst_not_mem '#' _ ?_]
    intro hm
    rcases List.mem_append.1 hm with h1 | h1
    · exact hPh h1
    · rcases List.mem_cons.1 h1 with h2 | h2
      · exact absurd h2 (by decide)
      · exact hQh h2
  have hqr : splitAtChar '?' (P ++ '?' :: Q) = (P, Q) := by
    rw [splitAtChar, splitFirst_app '?' _ _ hP2]
  rw [urlparse]
  rw [hfil, hsc]
  show (if bracketOk (splitNetloc ('/' :: '/' :: (D ++ (P ++ '?' :: Q)))).1 then _ else _) = _
  rw [hnl]
  show (if bracketOk D then _ else _) = _
  rw [if_pos hD2, hfr]
  show (if "https".data ∈ usesParams ∧ ';' ∈ (splitAtChar '?' (P ++ '?' :: Q)).1 then _ else _) = _
  rw [hqr]
  show (if "https".data ∈ usesParams ∧ ';' ∈ P then _ else _) = _
  by_cases hsemi : ';' ∈ P
  · rw [if_pos ⟨by decide, hsemi⟩, if_pos hsemi, if_pos hsemi]
  · rw [if_neg (by intro hc; exact hsemi hc.2), if_neg hsemi, if_neg hsemi]

theorem splitFirst_eq_some (c : Char) (s : Str) :
    ∀ a b, splitFirst c s = some (a, b) → s = a ++ c :: b ∧ c ∉ a := by
  induction s with
  | nil =>
    intro a b h
    simp [splitFirst] at h
  | cons x t ih =>
    intro a b h
    rw [splitFirst] at h
    split at h
    · rename_i hx
      subst hx
      injection h with h2
      injection h2 with h3 h4
      subst h3
      subst h4
      exact ⟨rfl, by simp⟩
    · rename_i hx
      rcases hsp : splitFirst c t with _ | ⟨a2, b2⟩
      · rw [hsp] at h
        simp at h
      · rw [hsp] at h
        simp only [Option.map_some'] at h
        injection h with h2
        injection h2 with h3 h4
        obtain ⟨h5, h6⟩ := ih a2 b2 hsp
        subst h4
        subst h3
        constructor
        · rw [h5]
          simp
        · intro hm
          rcases List.mem_cons.1 hm with h7 | h7
          · exact hx h7.symm
          · exact h6 h7

theorem splitFirst_eq_none (c : Char) (s : Str) (h : splitFirst c s = none) : c ∉ s := by
  induction s with
  | nil => simp
  | cons x t ih =>
    rw [splitFirst] at h
    split at h
    · simp at h
    · rename_i hx
      rcases hsp : splitFirst c t with _ | p
      · intro hm
        rcases List.mem_cons.1 hm with h3 | h3
        · exact hx h3.symm
        · exact ih hsp h3
      · rw [hsp] at h
        simp at h

theorem splitLast_eq_some (c : Char) (s a b : Str) (h : splitLast c s = some (a, b)) :
    s = a ++ c :: b ∧ c ∉ b := by
  rw [splitLast] at h
  rcases hsp : splitFirst c s.reverse with _ | ⟨x, y⟩
  · rw [hsp] at h
    simp at h
  · rw [hsp] at h
    injection h with h2
    injection h2 with h3 h4
    obtain ⟨h1, h2⟩ := splitFirst_eq_some c s.reverse x y hsp
    subst h3
    subst h4
    constructor
    · have := congrArg List.reverse h1
      simpa using this
    · intro hm
      exact h2 (by simpa using hm)

theorem splitAtChar_fst_not_mem (c : Char) (s : Str) : c ∉ (splitAtChar c s).1 := by
  rw [splitAtChar]
  rcases hsp : splitFirst c s with _ | ⟨a, b⟩
  · exact splitFirst_eq_none c s hsp
  · exact (splitFirst_eq_some c s a b hsp).2

theorem splitAtChar_fst_mem (c : Char) (s : Str) :
    ∀ x ∈ (splitAtChar c s).1, x ∈ s := by
  rw [splitAtChar]
  rcases hsp : splitFirst c s with _ | ⟨a, b⟩
  · exact fun x hx => hx
  · obtain ⟨h1, _⟩ := splitFirst_eq_some c s a b hsp
    intro x hx
    rw [h1]
    simp only [List.mem_append]
    exact Or.inl hx

theorem splitAtChar_snd_mem (c : Char) (s : Str) :
    ∀ x ∈ (splitAtChar c s).2, x ∈ s := by
  rw [splitAtChar]
  rcases hsp : splitFirst c s with _ | ⟨a, b⟩
  · simp
  · obtain ⟨h1, _⟩ := splitFirst_eq_some c s a b hsp
    intro x hx
    rw [h1]
    simp [hx]

theorem splitParamsSeg_fst_mem (p : Str) : ∀ c ∈ (splitParamsSeg p).1, c ∈ p := by
  rw [splitParamsSeg]
  split
  · split
    · rename_i pre seg hsl
      split
      · exact fun c hc => hc
      · rename_i a b hsp
        obtain ⟨h1, _⟩ := splitLast_eq_some '/' p pre seg hsl
        obtain ⟨h2, _⟩ := splitFirst_eq_some ';' seg a b hsp
        intro c hc
        rw [h1, h2]
        simp only [List.mem_append, List.mem_cons] at hc ⊢
        rcases hc with h3 | h3
        · exact Or.inl h3
        · rcases h3 with h4 | h4
          · exact Or.inr (Or.inl h4)
          · exact Or.inr (Or.inr (Or.inl h4))
    · exact fun c hc => hc
  · split
    · exact fun c hc => hc
    · rename_i a b hsp
      obtain ⟨h2, _⟩ := splitFirst_eq_some ';' p a b hsp
      intro c hc
      rw [h2]
      simp [hc]

theorem splitParamsSeg_headed (t : Str) :
    (splitParamsSeg ('/' :: t)).1 = [] ∨ ∃ u, (splitParamsSeg ('/' :: t)).1 = '/' :: u := by
  rw [splitParamsSeg]
  rw [if_pos (by simp)]
  split
  · rename_i pre seg hsl
    split
    · exact Or.inr ⟨t, rfl⟩
    · rename_i a b hsp
      obtain ⟨h1, _⟩ := splitLast_eq_some '/' ('/' :: t) pre seg hsl
      rcases pre with _ | ⟨x, u⟩
      · exact Or.inr ⟨a, rfl⟩
      · have hx : x = '/' := by
          have := congrArg List.headI h1
          simpa using this.symm
        subst hx
        exact Or.inr ⟨u ++ '/' :: a, by simp⟩
  · exact Or.inr ⟨t, rfl⟩

theorem splitScheme_snd_mem (s : Str) : ∀ c ∈ (splitScheme s).2, c ∈ s := by
  rw [splitScheme]
  rcases hsp : splitFirst ':' s with _ | ⟨pre, rest⟩
  · exact fun c hc => hc
  · obtain ⟨h1, _⟩ := splitFirst_eq_some ':' s pre rest hsp
    intro c hc
    have hc0 : c ∈ (if pre ≠ [] ∧ isSchemeStr pre = true then (lowerStr pre, rest)
        else ([], s)).2 := hc
    by_cases hcond : pre ≠ [] ∧ isSchemeStr pre = true
    · rw [if_pos hcond] at hc0
      have hc2 : c ∈ rest := hc0
      rw [h1]
      simp [hc2]
    · rw [if_neg hcond] at hc0
      exact hc0

theorem splitNetloc_fst_delim (r : Str) :
    ∀ c ∈ (splitNetloc r).1, isNetlocDelim c = false := by
  rw [splitNetloc]
  split
  · intro c hc
    have := List.mem_takeWhile_imp hc
    simpa using this
  · simp

theorem splitNetloc_fst_mem (r : Str) : ∀ c ∈ (splitNetloc r).1, c ∈ r := by
  rw [splitNetloc]
  split
  · intro c hc
    have h1 : c ∈ (r.drop 2) := ((r.drop 2).takeWhile_sublist _).mem hc
    exact (List.drop_sublist 2 r).mem h1
  · simp

theorem splitNetloc_snd_mem (r : Str) : ∀ c ∈ (splitNetloc r).2, c ∈ r := by
  rw [splitNetloc]
  split
  · intro c hc
    have h1 : c ∈ (r.drop 2) := ((r.drop 2).dropWhile_sublist _).mem hc
    exact (List.drop_sublist 2 r).mem h1
  · exact fun c hc => hc

theorem dw_head (p : Char → Bool) (l : Str) :
    l.dropWhile p = [] ∨ (l.dropWhile p ≠ [] ∧ p ((l.dropWhile p).headI) = false) := by
  induction l with
  | nil => exact Or.inl rfl
  | cons x t ih =>
    rw [List.dropWhile_cons]
    split
    · exact ih
    · rename_i hp
      exact Or.inr ⟨by simp, by simpa using hp⟩

theorem splitNetloc_snd_delim (r : Str) (h : (splitNetloc r).1 ≠ []) :
    (splitNetloc r).2 = [] ∨
      ((splitNetloc r).2 ≠ [] ∧ isNetlocDelim ((splitNetloc r).2.headI) = true) := by
  rw [splitNetloc] at h ⊢
  split at h
  · rename_i hpre
    rw [if_pos hpre]
    rcases dw_head (fun c => decide (¬ isNetlocDelim c = true)) (r.drop 2) with h1 | ⟨h1, h2⟩
    · exact Or.inl h1
    · refine Or.inr ⟨h1, ?_⟩
      simpa using h2
  · exact absurd rfl h

theorem splitAtChar_headed (c : Char) (s : Str) :
    (splitAtChar c s).1 = [] ∨
      ((splitAtChar c s).1 ≠ [] ∧ (splitAtChar c s).1.headI = s.headI ∧ s.headI ≠ c) := by
  rcases s with _ | ⟨x, t⟩
  · exact Or.inl rfl
  · by_cases hx : x = c
    · subst hx
      rw [splitAtChar, splitFirst]
      simp
    · rw [splitAtChar, splitFirst]
      rw [if_neg hx]
      rcases hsp : splitFirst c t with _ | ⟨a, b⟩
      · exact Or.inr ⟨by simp, rfl, by simpa using hx⟩
      · exact Or.inr ⟨by simp, rfl, by simpa using hx⟩

theorem splitAtChar_nil (c : Char) : splitAtChar c [] = ([], []) := rfl

theorem splitParamsSeg_nil : splitParamsSeg [] = ([], []) := rfl

/-- Structural facts about a successful `urlparse`. -/
theorem urlparse_parts (url : Str) (pr : ParseResult) (h : urlparse url = some pr) :
    (∀ c ∈ pr.netloc, isNetlocDelim c = false) ∧
    bracketOk pr.netloc = true ∧
    '?' ∉ pr.path ∧ '#' ∉ pr.path ∧ '#' ∉ pr.query ∧
    (∀ c ∈ pr.netloc, ¬ (c = '\t' ∨ c = '\r' ∨ c = '\n') ∧ c ∈ url) ∧
    (∀ c ∈ pr.path, ¬ (c = '\t' ∨ c = '\r' ∨ c = '\n') ∧ c ∈ url) ∧
    (∀ c ∈ pr.query, ¬ (c = '\t' ∨ c = '\r' ∨ c = '\n') ∧ c ∈ url) ∧
    (pr.netloc ≠ [] → (pr.path = [] ∨ ∃ t, pr.path = '/' :: t)) := by
  simp only [urlparse] at h
  set u1 := url.filter (fun c => ¬ (c = '\t' ∨ c = '\r' ∨ c = '\n')) with hu1
  set sp := splitScheme u1 with hsp2
  set nl := splitNetloc sp.2 with hnl2
  set fr := splitAtChar '#' nl.2 with hfr2
  set qr := splitAtChar '?' fr.1 with hqr2
  set pp := splitParamsSeg qr.1 with hpp2
  have hfl : ∀ c ∈ u1, ¬ (c = '\t' ∨ c = '\r' ∨ c = '\n') ∧ c ∈ url := by
    intro c hc
    rw [hu1] at hc
    have := List.mem_filter.mp hc
    exact ⟨by simpa using this.2, this.1⟩
  have hmem_nl : ∀ c ∈ nl.1, ¬ (c = '\t' ∨ c = '\r' ∨ c = '\n') ∧ c ∈ url :=
    fun c hc => hfl c (splitScheme_snd_mem u1 c (splitNetloc_fst_mem sp.2 c hc))
  have hmem_q : ∀ c ∈ qr.1, c ∈ u1 := fun c hc =>
    splitScheme_snd_mem u1 c (splitNetloc_snd_mem sp.2 c
      (splitAtChar_fst_mem '#' nl.2 c (splitAtChar_fst_mem '?' fr.1 c hc)))
  have hmem_q2 : ∀ c ∈ qr.2, c ∈ u1 := fun c hc =>
    splitScheme_snd_mem u1 c (splitNetloc_snd_mem sp.2 c
      (splitAtChar_fst_mem '#' nl.2 c (splitAtChar_snd_mem '?' fr.1 c hc)))
  have hq_noq : '?' ∉ qr.1 := splitAtChar_fst_not_mem '?' fr.1
  have hq_noh : '#' ∉ qr.1 := fun hm =>
    splitAtChar_fst_not_mem '#' nl.2 (splitAtChar_fst_mem '?' fr.1 '#' hm)
  have hq2_noh : '#' ∉ qr.2 := fun hm =>
    splitAtChar_fst_not_mem '#' nl.2 (splitAtChar_snd_mem '?' fr.1 '#' hm)
  have hheaded : nl.1 ≠ [] → (qr.1 = [] ∨ ∃ t, qr.1 = '/' :: t) := by
    intro hne
    rcases splitNetloc_snd_delim sp.2 hne with h2 | ⟨h2, h3⟩
    · have hnl0 : nl.2 = [] := h2
      have hfr0 : fr.1 = [] := by rw [hfr2, hnl0, splitAtChar_nil]
      have hqr0 : qr.1 = [] := by rw [hqr2, hfr0, splitAtChar_nil]
      exact Or.inl hqr0
    · have h3b : isNetlocDelim nl.2.headI = true := h3
      rcases splitAtChar_headed '#' nl.2 with h4 | ⟨h4, h5, h6⟩
      · have hfr0 : fr.1 = [] := h4
        have hqr0 : qr.1 = [] := by rw [hqr2, hfr0, splitAtChar_nil]
        exact Or.inl hqr0
      · rcases splitAtChar_headed '?' fr.1 with h7 | ⟨h7, h8, h9⟩
        · exact Or.inl h7
        · right
          have hfr4 : fr.1 ≠ [] := h4
          have hfr5 : fr.1.headI = nl.2.headI := h5
          have hfr6 : nl.2.headI ≠ '#' := h6
          have hq7 : qr.1 ≠ [] := h7
          have hq8 : qr.1.headI = fr.1.headI := h8
          have hq9 : fr.1.headI ≠ '?' := h9
          have hdel : nl.2.headI = '/' ∨ nl.2.headI = '?' ∨ nl.2.headI = '#' := by
            rw [isNetlocDelim] at h3b
            exact or_assoc.mp (by simpa using h3b)
          have hslash : qr.1.headI = '/' := by
            rcases hdel with h10 | h10 | h10
            · rw [hq8, hfr5, h10]
            · exact absurd (hfr5.trans h10) hq9
            · exact absurd h10 hfr6
          rcases hq : qr.1 with _ | ⟨x, t⟩
          · exact absurd hq hq7
          · refine ⟨t, ?_⟩
            rw [hq] at hslash
            have hx : x = '/' := hslash
            rw [hx]
  have hpp_noq : '?' ∉ pp.1 := fun hm => hq_noq (splitParamsSeg_fst_mem qr.1 '?' hm)
  have hpp_noh : '#' ∉ pp.1 := fun hm => hq_noh (splitParamsSeg_fst_mem qr.1 '#' hm)
  have hmem_pp : ∀ c ∈ pp.1, c ∈ u1 := fun c hc =>
    hmem_q c (splitParamsSeg_fst_mem qr.1 c hc)
  have hpp_headed : nl.1 ≠ [] → (pp.1 = [] ∨ ∃ t, pp.1 = '/' :: t) := by
    intro hne
    rcases hheaded hne with h2 | ⟨t, h2⟩
    · rw [hpp2, h2, splitParamsSeg_nil]
      exact Or.inl rfl
    · rw [hpp2, h2]
      exact splitParamsSeg_headed t
  split at h
  · rename_i hbr
    split at h
    · injection h with h2
      subst h2
      refine ⟨fun c hc => splitNetloc_fst_delim sp.2 c hc, hbr, hpp_noq, hpp_noh,
        hq2_noh, hmem_nl, ?_, ?_, hpp_headed⟩
      · exact fun c hc => hfl c (hmem_pp c hc)
      · exact fun c hc => hfl c (hmem_q2 c hc)
    · injection h with h2
      subst h2
      refine ⟨fun c hc => splitNetloc_fst_delim sp.2 c hc, hbr, hq_noq, hq_noh,
        hq2_noh, hmem_nl, ?_, ?_, hheaded⟩
      · exact fun c hc => hfl c (hmem_q c hc)
      · exact fun c hc => hfl c (hmem_q2 c hc)
  · simp at h

theorem toNat_ofNat_valid (n : Nat) (h : n.isValidChar) : (Char.ofNat n).toNat = n := by
  rw [Char.ofNat, dif_pos h]
  rfl

theorem lowerC_eq_or (c : Char) :
    lowerC c = c ∨ ('A' ≤ c ∧ c ≤ 'Z' ∧ 'a' ≤ lowerC c ∧ lowerC c ≤ 'z') := by
  rw [lowerC]
  split
  · rename_i hr
    right
    have hA : (65 : Nat) ≤ c.toNat := hr.1
    have hZ : c.toNat ≤ (90 : Nat) := hr.2
    have hv : (c.toNat + 32).isValidChar := Or.inl (by omega)
    have htn : (Char.ofNat (c.toNat + 32)).toNat = c.toNat + 32 :=
      toNat_ofNat_valid _ hv
    refine ⟨hr.1, hr.2, ?_, ?_⟩
    · show ('a' : Char).toNat ≤ (Char.ofNat (c.toNat + 32)).toNat
      rw [htn]
      show (97 : Nat) ≤ c.toNat + 32
      omega
    · show (Char.ofNat (c.toNat + 32)).toNat ≤ ('z' : Char).toNat
      rw [htn]
      show c.toNat + 32 ≤ (122 : Nat)
      omega
  · exact Or.inl rfl

theorem lowerC_notupper (c : Char) (h : ¬ ('A' ≤ c ∧ c ≤ 'Z')) : lowerC c = c := by
  rw [lowerC, if_neg h]

theorem lowerC_delim (c : Char) : isNetlocDelim (lowerC c) = isNetlocDelim c := by
  rcases lowerC_eq_or c with h | ⟨h1, h2, h3, h4⟩
  · rw [h]
  · have hc : isNetlocDelim c = false := by
      rw [isNetlocDelim]
      have e1 : c ≠ '/' := fun he => absurd (And.intro (he ▸ h1) (he ▸ h2)) (by decide)
      have e2 : c ≠ '?' := fun he => absurd (And.intro (he ▸ h1) (he ▸ h2)) (by decide)
      have e3 : c ≠ '#' := fun he => absurd (And.intro (he ▸ h1) (he ▸ h2)) (by decide)
      simp [e1, e2, e3]
    have hl : isNetlocDelim (lowerC c) = false := by
      rw [isNetlocDelim]
      have e1 : lowerC c ≠ '/' := fun he => absurd (And.intro (he ▸ h3) (he ▸ h4)) (by decide)
      have e2 : lowerC c ≠ '?' := fun he => absurd (And.intro (he ▸ h3) (he ▸ h4)) (by decide)
      have e3 : lowerC c ≠ '#' := fun he => absurd (And.intro (he ▸ h3) (he ▸ h4)) (by decide)
      simp [e1, e2, e3]
    rw [hc, hl]

theorem lowerC_fix (c x : Char) (hx : ¬ ('A' ≤ x ∧ x ≤ 'Z')) (hxl : ¬ ('a' ≤ x ∧ x ≤ 'z')) :
    lowerC c = x ↔ c = x := by
  rcases lowerC_eq_or c with h | ⟨h1, h2, h3, h4⟩
  · rw [h]
  · constructor
    · intro he
      rw [he] at h3 h4
      exact absurd ⟨h3, h4⟩ hxl
    · intro he
      rw [he] at h1 h2
      exact absurd ⟨h1, h2⟩ hx

theorem lowerStr_mem_fix (n : Str) (x : Char) (hx : ¬ ('A' ≤ x ∧ x ≤ 'Z'))
    (hxl : ¬ ('a' ≤ x ∧ x ≤ 'z')) : x ∈ lowerStr n ↔ x ∈ n := by
  rw [lowerStr]
  constructor
  · intro hm
    rcases List.mem_map.1 hm with ⟨c, hc, he⟩
    exact ((lowerC_fix c x hx hxl).mp he) ▸ hc
  · intro hm
    exact List.mem_map.mpr ⟨x, hm, (lowerC_fix x x hx hxl).mpr rfl⟩

theorem lowerStr_bracketOk (n : Str) (h : bracketOk n = true) :
    bracketOk (lowerStr n) = true := by
  rw [bracketOk] at h ⊢
  rw [show (('[' ∈ lowerStr n) : Bool) = (('[' ∈ n) : Bool) by
    simp [lowerStr_mem_fix n '[' (by decide) (by decide)]]
  rw [show ((']' ∈ lowerStr n) : Bool) = ((']' ∈ n) : Bool) by
    simp [lowerStr_mem_fix n ']' (by decide) (by decide)]]
  exact h

theorem lowerStr_delim (n : Str) (h : ∀ c ∈ n, isNetlocDelim c = false) :
    ∀ c ∈ lowerStr n, isNetlocDelim c = false := by
  intro c hc
  rcases List.mem_map.1 hc with ⟨x, hx, he⟩
  rw [← he, lowerC_delim]
  exact h x hx

theorem lowerStr_notab (n : Str) (h : ∀ c ∈ n, ¬ (c = '\t' ∨ c = '\r' ∨ c = '\n')) :
    ∀ c ∈ lowerStr n, ¬ (c = '\t' ∨ c = '\r' ∨ c = '\n') := by
  intro c hc
  rcases List.mem_map.1 hc with ⟨x, hx, he⟩
  rintro (h1 | h1 | h1) <;> rw [← he] at h1
  · exact h x hx (Or.inl ((lowerC_fix x '\t' (by decide) (by decide)).mp h1))
  · exact h x hx (Or.inr (Or.inl ((lowerC_fix x '\r' (by decide) (by decide)).mp h1)))
  · exact h x hx (Or.inr (Or.inr ((lowerC_fix x '\n' (by decide) (by decide)).mp h1)))

theorem tryMatchers_shape (ms : List (Str → Option Str)) (p : Str) (a : Str)
    (h : tryMatchers ms p = some a) : a.length = 10 ∧ a.all isAlnumA = true := by
  induction ms with
  | nil => simp [tryMatchers] at h
  | cons m t ih =>
    rw [tryMatchers] at h
    rcases hsp : searchPos m p with _ | cap
    · rw [hsp] at h
      exact ih h
    · rw [hsp] at h
      have h2 : (if cap.length = 10 ∧ cap.all isAlnumA = true then some cap
          else tryMatchers t p) = some a := h
      split at h2
      · rename_i hc
        injection h2 with h3
        subst h3
        exact ⟨hc.1, hc.2⟩
      · exact ih h2

theorem extractAsin_shape (p a : Str) (h : extractAsin p = some a) :
    a.length = 10 ∧ a.all isAlnumA = true := tryMatchers_shape asinMatchers p a h

theorem alnum_excl (a : Str) (ha : a.all isAlnumA = true) (x : Char)
    (hx : isAlnumA x = false) : x ∉ a := by
  intro hm
  rw [List.all_eq_true] at ha
  rw [ha x hm] at hx
  exact absurd hx (by simp)

theorem intercalateC_mem (c : Char) (L : List Str) (x : Char)
    (h : x ∈ intercalateC c L) : x = c ∨ ∃ p ∈ L, x ∈ p := by
  induction L with
  | nil => simp [intercalateC] at h
  | cons p t ih =>
    rcases t with _ | ⟨q, t2⟩
    · exact Or.inr ⟨p, by simp, h⟩
    · rw [intercalateC] at h
      rcases List.mem_append.1 h with h1 | h1
      · exact Or.inr ⟨p, by simp, h1⟩
      · rcases List.mem_cons.1 h1 with h2 | h2
        · exact Or.inl h2
        · rcases ih h2 with h3 | ⟨r, hr, h3⟩
          · exact Or.inl h3
          · exact Or.inr ⟨r, by simp [hr], h3⟩

theorem urlencode_mem (d : List (Str × List Str)) (x : Char) (h : x ∈ urlencode d) :
    qTame x = true ∨ x = '=' ∨ x = '&' := by
  rw [urlencode] at h
  rcases intercalateC_mem '&' _ x h with h1 | ⟨p, hp, h1⟩
  · exact Or.inr (Or.inr h1)
  · rcases List.mem_flatMap.1 hp with ⟨kv, _, hp2⟩
    rcases List.mem_map.1 hp2 with ⟨v, _, hp3⟩
    subst hp3
    rcases List.mem_append.1 h1 with h2 | h2
    · exact Or.inl (quotePlus_tame _ x h2)
    · rcases List.mem_cons.1 h2 with h3 | h3
      · exact Or.inr (Or.inl h3)
      · exact Or.inl (quotePlus_tame _ x h3)

theorem notab_of_tame (x : Char) (h : qTame x = true ∨ x = '=' ∨ x = '&') :
    ¬ (x = '\t' ∨ x = '\r' ∨ x = '\n') := by
  rintro (rfl | rfl | rfl) <;>
    rcases h with h1 | h1 | h1 <;> revert h1 <;> decide

theorem notab_alnum (x : Char) (h : isAlnumA x = true) :
    ¬ (x = '\t' ∨ x = '\r' ∨ x = '\n') := by
  rintro (rfl | rfl | rfl) <;> revert h <;> decide

theorem noq_alnum (a : Str) (ha : a.all isAlnumA = true) : '?' ∉ a :=
  alnum_excl a ha '?' (by decide)

theorem noh_alnum (a : Str) (ha : a.all isAlnumA = true) : '#' ∉ a :=
  alnum_excl a ha '#' (by decide)

theorem tagPairs_of_dict (d0 : List (Str × List Str)) (tag : Str)
    (hnk : tagKey ∉ keysOf d0)
    (hnd : (keysOf (d0 ++ [(tagKey, [tag])])).Nodup)
    (hinv : ∀ p ∈ d0, p.2 ≠ [] ∧ ∀ x ∈ p.2, x ≠ [])
    (ht : tag ≠ []) :
    (parseQsl (urlencode (d0 ++ [(tagKey, [tag])]))).filter
      (fun kv => kv.1 = tagKey) = [(tagKey, tag)] := by
  rw [parseQsl_urlencode]
  · exact filter_tag_pairs d0 tag hnk
  · intro p hp v hv
    rcases List.mem_append.1 hp with h1 | h1
    · exact (hinv p h1).2 v hv
    · rcases List.mem_singleton.mp h1 with rfl
      rcases List.mem_singleton.mp hv with rfl
      exact ht


/-- The final parameter dict of the canonical branch and its tag pairs. -/
theorem tagPairs_of_filtered (qp : List (Str × List Str)) (tag : Str)
    (hnd : (keysOf qp).Nodup)
    (hinv : ∀ p ∈ qp, p.2 ≠ [] ∧ ∀ x ∈ p.2, x ≠ [])
    (ht : tag ≠ []) :
    (parseQsl (urlencode ((retag qp tag).filter (fun p => p.1 ∈ keepParams)))).filter
      (fun kv => kv.1 = tagKey) = [(tagKey, tag)] := by
  obtain ⟨d0, hre, hsub, hnk⟩ := retag_decomp qp tag hnd
  rw [hre, List.filter_append]
  have htagkeep : ([((tagKey : Str), [tag])].filter
      (fun p : Str × List Str => p.1 ∈ keepParams)) = [(tagKey, [tag])] := by
    rw [List.filter_cons, if_pos (decide_eq_true (by decide : (tagKey : Str) ∈ keepParams)), List.filter_nil]
  rw [htagkeep]
  have hsubf : List.Sublist (d0.filter (fun p : Str × List Str => p.1 ∈ keepParams)) d0 :=
    List.filter_sublist d0
  have hnk2 : tagKey ∉ keysOf (d0.filter (fun p : Str × List Str => p.1 ∈ keepParams)) :=
    fun hm => hnk ((keysOf_sublist _ _ hsubf).mem hm)
  refine tagPairs_of_dict _ tag hnk2 ?_ ?_ ht
  · rw [keysOf_append]
    refine List.Nodup.append ?_ (by simp [keysOf]) ?_
    · exact hnd.sublist (keysOf_sublist _ _ (hsubf.trans hsub))
    · intro x hx hb
      have hb2 : x ∈ [tagKey] := hb
      rcases List.mem_singleton.mp hb2 with rfl
      exact hnk2 hx
  · intro p hp
    exact hinv p (hsub.mem (hsubf.mem hp))

theorem tagPairs_of_retag (qp : List (Str × List Str)) (tag : Str)
    (hnd : (keysOf qp).Nodup)
    (hinv : ∀ p ∈ qp, p.2 ≠ [] ∧ ∀ x ∈ p.2, x ≠ [])
    (ht : tag ≠ []) :
    (parseQsl (urlencode (retag qp tag))).filter (fun kv => kv.1 = tagKey)
      = [(tagKey, tag)] := by
  obtain ⟨d0, hre, hsub, hnk⟩ := retag_decomp qp tag hnd
  rw [hre]
  refine tagPairs_of_dict d0 tag hnk ?_ (fun p hp => hinv p (hsub.mem hp)) ht
  rw [keysOf_append]
  refine List.Nodup.append ?_ (by simp [keysOf]) ?_
  · exact hnd.sublist (keysOf_sublist _ _ hsub)
  · intro x hx hb
    have hb2 : x ∈ [tagKey] := hb
    rcases List.mem_singleton.mp hb2 with rfl
    exact hnk hx

/-- Unfolding of the canonical (ASIN) branch of `convert_amazon_link`. -/
theorem convert_canonical_eq (url tag su : Str) (pr : ParseResult) (a : Str)
    (hs : isShortFlag url = false)
    (hp : urlparse url = some pr)
    (ha : extractAsin pr.path = some a) :
    convertAmazonLink url tag su =
      "https://".data ++
        (if "amazon".data <:+: lowerStr pr.netloc then lowerStr pr.netloc else su) ++
        "/dp/".data ++ a ++
        '?' :: urlencode ((retag (parseQs pr.query) tag).filter
          (fun p => p.1 ∈ keepParams)) := by
  rw [convertAmazonLink, if_neg (by simp [hs]), hp]
  show (match extractAsin pr.path with
    | some asin => _
    | none => _) = _
  rw [ha]

/-- Unfolding of the search-page branch of `convert_amazon_link`. -/
theorem convert_search_eq (url tag su : Str) (pr : ParseResult)
    (hs : isShortFlag url = false)
    (hp : urlparse url = some pr)
    (ha : extractAsin pr.path = none)
    (hd : "amazon".data <:+: lowerStr pr.netloc) :
    convertAmazonLink url tag su =
      "https://".data ++ lowerStr pr.netloc ++ pr.path ++
        '?' :: urlencode (retag (parseQs pr.query) tag) := by
  rw [convertAmazonLink, if_neg (by simp [hs]), hp]
  show (match extractAsin pr.path with
    | some asin => _
    | none => _) = _
  rw [ha]
  show (if "amazon".data <:+: lowerStr pr.netloc then _ else url) = _
  rw [if_pos hd]

/-- Unfolding of the unrecognized branch of `convert_amazon_link`. -/
theorem convert_unrec_eq (url tag su : Str)
    (hs : isShortFlag url = false)
    (h2 : ∀ pr, urlparse url = some pr →
      extractAsin pr.path = none ∧ ¬ "amazon".data <:+: lowerStr pr.netloc) :
    convertAmazonLink url tag su = url := by
  rw [convertAmazonLink, if_neg (by simp [hs])]
  rcases hp : urlparse url with _ | pr
  · rfl
  · obtain ⟨ha, hd⟩ := h2 pr hp
    show (match extractAsin pr.path with
      | some asin => _
      | none => _) = _
    rw [ha]
    show (if "amazon".data <:+: lowerStr pr.netloc then _ else url) = url
    rw [if_neg hd]

theorem urlencode_notab (d : List (Str × List Str)) :
    ∀ c ∈ urlencode d, ¬ (c = '\t' ∨ c = '\r' ∨ c = '\n') :=
  fun c hc => notab_of_tame c (urlencode_mem d c hc)

theorem urlencode_noh (d : List (Str × List Str)) : '#' ∉ urlencode d := by
  intro hm
  rcases urlencode_mem d '#' hm with h1 | h1 | h1
  · exact absurd h1 (by decide)
  · exact absurd h1 (by decide)
  · exact absurd h1 (by decide)

/-- The query of the URL built by the canonical branch is its encoded
parameter dict. -/
theorem queryOf_built (T P Q : Str)
    (hT1 : ∀ c ∈ T, isNetlocDelim c = false)
    (hT2 : bracketOk T = true)
    (hT3 : ∀ c ∈ T, ¬ (c = '\t' ∨ c = '\r' ∨ c = '\n'))
    (hP1 : P = [] ∨ ∃ t, P = '/' :: t)
    (hP2 : '?' ∉ P) (hPh : '#' ∉ P)
    (hP3 : ∀ c ∈ P, ¬ (c = '\t' ∨ c = '\r' ∨ c = '\n'))
    (hQh : '#' ∉ Q)
    (hQ3 : ∀ c ∈ Q, ¬ (c = '\t' ∨ c = '\r' ∨ c = '\n')) :
    queryOfUrl ("https://".data ++ T ++ P ++ '?' :: Q) = Q := by
  have hT : ∀ c ∈ ("https://".data ++ T ++ P ++ '?' :: Q),
      ¬ (c = '\t' ∨ c = '\r' ∨ c = '\n') := by
    intro c hc
    simp only [List.append_assoc, List.mem_append, List.mem_cons] at hc
    rcases hc with h1 | h1 | h1 | h1 | h1
    · rintro (rfl | rfl | rfl) <;> revert h1 <;> decide
    · exact hT3 c h1
    · exact hP3 c h1
    · rintro (rfl | rfl | rfl) <;> revert h1 <;> decide
    · exact hQ3 c h1
  have hb := urlparse_built T P Q hT1 hT2 hP1 hP2 hPh hQh hT
  rw [queryOfUrl]
  rw [show "https://".data ++ T ++ P ++ '?' :: Q
      = "https://".data ++ (T ++ (P ++ '?' :: Q)) by simp] at hb ⊢
  rw [show "https://".data ++ (T ++ (P ++ '?' :: Q))
      = "https://".data ++ T ++ P ++ '?' :: Q by simp] at hb ⊢
  rw [hb]

/-- The canonical branch emits exactly one `tag` parameter carrying the
affiliate tag. -/
theorem convert_canonical_query (url tag su : Str) (pr : ParseResult) (a : Str)
    (hs : isShortFlag url = false)
    (hp : urlparse url = some pr)
    (ha : extractAsin pr.path = some a)
    (ht : tag ≠ [])
    (hsu : configOk su) :
    tagPairsOf (convertAmazonLink url tag su) = [(tagKey, tag)] := by
  obtain ⟨hprD, hprB, _, _, _, hprMn, _, _, _⟩ := urlparse_parts url pr hp
  obtain ⟨hsha, hshb⟩ := extractAsin_shape pr.path a ha
  obtain ⟨hsu1, hsu2, hsu3⟩ := hsu
  rw [tagPairsOf, convert_canonical_eq url tag su pr a hs hp ha]
  rw [show "https://".data ++
        (if "amazon".data <:+: lowerStr pr.netloc then lowerStr pr.netloc else su) ++
        "/dp/".data ++ a ++ '?' :: urlencode ((retag (parseQs pr.query) tag).filter
          (fun p => p.1 ∈ keepParams))
      = "https://".data ++
        (if "amazon".data <:+: lowerStr pr.netloc then lowerStr pr.netloc else su) ++
        ("/dp/".data ++ a) ++ '?' :: urlencode ((retag (parseQs pr.query) tag).filter
          (fun p => p.1 ∈ keepParams)) by simp]
  rw [queryOf_built]
  · exact tagPairs_of_filtered (parseQs pr.query) tag (parseQs_nodup pr.query)
      (parseQs_inv pr.query) ht
  · intro c hc
    split at hc
    · exact lowerStr_delim pr.netloc (fun x hx => hprD x hx) c hc
    · exact hsu1 c hc
  · split
    · exact lowerStr_bracketOk pr.netloc hprB
    · exact hsu2
  · intro c hc
    split at hc
    · exact lowerStr_notab pr.netloc (fun x hx => (hprMn x hx).1) c hc
    · exact hsu3 c hc
  · exact Or.inr ⟨"dp/".data ++ a, by simp⟩
  · intro hm
    rcases List.mem_append.1 hm with h1 | h1
    · exact absurd h1 (by decide)
    · exact noq_alnum a hshb h1
  · intro hm
    rcases List.mem_append.1 hm with h1 | h1
    · exact absurd h1 (by decide)
    · exact noh_alnum a hshb h1
  · intro c hc
    rcases List.mem_append.1 hc with h1 | h1
    · rintro (rfl | rfl | rfl) <;> revert h1 <;> decide
    · refine notab_alnum c ?_
      rw [List.all_eq_true] at hshb
      exact hshb c h1
  · exact urlencode_noh _
  · exact urlencode_notab _

/-- The search-page branch emits exactly one `tag` parameter carrying the
affiliate tag. -/
theorem convert_search_query (url tag su : Str) (pr : ParseResult)
    (hs : isShortFlag url = false)
    (hp : urlparse url = some pr)
    (ha : extractAsin pr.path = none)
    (hd : "amazon".data <:+: lowerStr pr.netloc)
    (ht : tag ≠ []) :
    tagPairsOf (convertAmazonLink url tag su) = [(tagKey, tag)] := by
  obtain ⟨hprD, hprB, hprQ, hprH, _, hprMn, hprMp, _, hprHd⟩ := urlparse_parts url pr hp
  have hnet : pr.netloc ≠ [] := by
    intro hnil
    rw [hnil] at hd
    rw [show lowerStr [] = [] from rfl] at hd
    have := hd.length_le
    simp at this
  rw [tagPairsOf, convert_search_eq url tag su pr hs hp ha hd]
  rw [queryOf_built]
  · exact tagPairs_of_retag (parseQs pr.query) tag (parseQs_nodup pr.query)
      (parseQs_inv pr.query) ht
  · exact lowerStr_delim pr.netloc (fun x hx => hprD x hx)
  · exact lowerStr_bracketOk pr.netloc hprB
  · exact lowerStr_notab pr.netloc (fun x hx => (hprMn x hx).1)
  · exact hprHd hnet
  · exact hprQ
  · exact hprH
  · exact fun c hc => (hprMp c hc).1
  · exact urlencode_noh _
  · exact urlencode_notab _

/-- C1: on every recognized canonical product URL with a ten-character
alphanumeric identifier, whatever the existing query string, the rewritten
URL carries exactly one `tag` parameter and it equals the affiliate tag. -/
theorem c1_claim (url tag su : Str) (pr : ParseResult) (a : Str)
    (hs : isShortFlag url = false) (hp : urlparse url = some pr)
    (ha : extractAsin pr.path = some a) (ht : tag ≠ []) (hsu : configOk su) :
    tagPairsOf (convertAmazonLink url tag su) = [(tagKey, tag)] :=
  convert_canonical_query url tag su pr a hs hp ha ht hsu

theorem c1_wit :
    tagPairsOf (convertAmazonLink "https://amazon.com/dp/B00TESTID1?ref=abc&tag=old".data
      "mytag-21".data "amazon.in".data) = [(tagKey, "mytag-21".data)] :=
  c1_claim "https://amazon.com/dp/B00TESTID1?ref=abc&tag=old".data "mytag-21".data
    "amazon.in".data
    ⟨"https".data, "amazon.com".data, "/dp/B00TESTID1".data, [], "ref=abc&tag=old".data, []⟩
    "B00TESTID1".data (by decide) (by decide) (by decide) (by decide) (by decide)

/-- C2 (amended): for every non-shortened URL that the rewrite actually
transforms, the output carries exactly one `tag` parameter equal to the
affiliate tag; shortened-redirector links are excluded, because there the
code appends a second `tag` instead of dropping the existing one. -/
theorem c2_amended (url tag su : Str)
    (hs : isShortFlag url = false)
    (hch : convertAmazonLink url tag su ≠ url)
    (ht : tag ≠ []) (hsu : configOk su) :
    tagPairsOf (convertAmazonLink url tag su) = [(tagKey, tag)] := by
  rcases hp : urlparse url with _ | pr
  · exfalso
    apply hch
    rw [convertAmazonLink, if_neg (by simp [hs]), hp]
  · rcases ha : extractAsin pr.path with _ | a
    · by_cases hd : "amazon".data <:+: lowerStr pr.netloc
      · exact convert_search_query url tag su pr hs hp ha hd ht
      · exfalso
        refine hch (convert_unrec_eq url tag su hs ?_)
        intro pr2 hp2
        rw [hp] at hp2
        injection hp2 with h2
        subst h2
        exact ⟨ha, hd⟩
    · exact convert_canonical_query url tag su pr a hs hp ha ht hsu

theorem c2_wit :
    tagPairsOf (convertAmazonLink "https://www.Amazon.com/dp/B00TESTID1?tag=old&ref=x".data
      "mytag-21".data "amazon.in".data) = [(tagKey, "mytag-21".data)] :=
  c2_amended "https://www.Amazon.com/dp/B00TESTID1?tag=old&ref=x".data "mytag-21".data
    "amazon.in".data (by decide) (by decide) (by decide) (by decide)

/-- C2 (counterexample): a shortened link already carrying `tag=old` is
rewritten by blind appending, so the output carries two `tag` parameters
and the pre-existing one is not dropped. -/
theorem c2_counter :
    convertAmazonLink "https://amzn.to/abc?tag=old".data "mytag-21".data "amazon.in".data
      = "https://amzn.to/abc?tag=old&tag=mytag-21".data ∧
    convertAmazonLink "https://amzn.to/abc?tag=old".data "mytag-21".data "amazon.in".data
      ≠ "https://amzn.to/abc?tag=old".data ∧
    tagPairsOf "https://amzn.to/abc?tag=old&tag=mytag-21".data
      = [(tagKey, "old".data), (tagKey, "mytag-21".data)] := by decide

/-- C3 (amended): the code performs no network fetch at all: every
shortened-redirector URL is rewritten purely textually, by appending the
`tag` parameter with `?` or `&` to the unresolved shortened URL itself. -/
theorem c3_amended (url tag su : Str) (hs : isShortFlag url = true) :
    convertAmazonLink url tag su =
      url ++ (if '?' ∈ url then ['&'] else ['?']) ++ "tag=".data ++ tag := by
  rw [convertAmazonLink, if_pos (by simp [hs])]

theorem c3_wit :
    convertAmazonLink "https://amzn.to/3xyz".data "mytag-21".data "amazon.in".data
      = "https://amzn.to/3xyz".data ++
        (if '?' ∈ "https://amzn.to/3xyz".data then ['&'] else ['?']) ++
        "tag=".data ++ "mytag-21".data :=
  c3_amended "https://amzn.to/3xyz".data "mytag-21".data "amazon.in".data (by decide)

/-- C3 (counterexample): the spec scenario input yields the tagged
shortened URL, not the canonical form of the resolved product URL. -/
theorem c3_counter :
    convertAmazonLink "https://amzn.to/3xyz".data "mytag-21".data "amazon.in".data
      = "https://amzn.to/3xyz?tag=mytag-21".data ∧
    convertAmazonLink "https://amzn.to/3xyz".data "mytag-21".data "amazon.in".data
      ≠ "https://amazon.com/dp/B00TESTID1?tag=mytag-21".data := by decide

/-- C6 (amended): a URL is returned unchanged when it is not
catalog-recognized: unparsable, or parsed with no ASIN in its path and no
`amazon` in its domain. Domain alone does not decide: a non-Amazon domain
with an ASIN-shaped path is still rewritten. -/
theorem c6_amended (url tag su : Str) (h : isCatalogRecognized url = false) :
    convertAmazonLink url tag su = url := by
  rw [isCatalogRecognized] at h
  rcases Bool.or_eq_false_iff.mp h with ⟨h1, h2⟩
  rcases hp : urlparse url with _ | pr
  · rw [convertAmazonLink, if_neg (by simp [h1]), hp]
  · rw [hp] at h2
    refine convert_unrec_eq url tag su h1 ?_
    intro pr2 hp2
    rw [hp] at hp2
    injection hp2 with h3
    subst h3
    rcases Bool.or_eq_false_iff.mp h2 with ⟨h4, h5⟩
    refine ⟨?_, ?_⟩
    · rcases he : extractAsin pr.path with _ | a
      · rfl
      · rw [he] at h4
        simp at h4
    · simpa using h5

theorem c6_wit :
    convertAmazonLink "https://example.org/hello?x=1".data "mytag-21".data "amazon.in".data
      = "https://example.org/hello?x=1".data :=
  c6_amended "https://example.org/hello?x=1".data "mytag-21".data "amazon.in".data (by decide)

/-- C6 (counterexample): a URL on a non-catalog domain with an ASIN-shaped
path is not returned unchanged: it is rewritten onto the configured search
domain. -/
theorem c6_counter :
    ¬ ("amazon".data <:+: lowerStr (netlocOf "https://evil.com/dp/B08N5WRWNW".data)) ∧
    convertAmazonLink "https://evil.com/dp/B08N5WRWNW".data "mytag-21".data "amazon.in".data
      = "https://amazon.in/dp/B08N5WRWNW?tag=mytag-21".data ∧
    convertAmazonLink "https://evil.com/dp/B08N5WRWNW".data "mytag-21".data "amazon.in".data
      ≠ "https://evil.com/dp/B08N5WRWNW".data := by decide

theorem isPrefixOf_ex (w s : Str) (h : w.isPrefixOf s = true) : ∃ r, s = w ++ r := by
  induction w generalizing s with
  | nil => exact ⟨s, rfl⟩
  | cons c t ih =>
    rcases s with _ | ⟨x, s2⟩
    · simp [List.isPrefixOf] at h
    · rw [List.isPrefixOf] at h
      rcases Bool.and_eq_true_iff.mp h with ⟨h1, h2⟩
      have hcx : c = x := by simpa using h1
      subst hcx
      rcases ih s2 h2 with ⟨r, hr⟩
      exact ⟨r, by simp [hr]⟩

/-- A case-insensitive literal seen at any offset yields a case-insensitive
infix of the whole string. -/
theorem containsCI_of_sw (s w w0 : Str) (k : Nat)
    (h : startsWithCI w (s.drop k) = true)
    (hw : lowerStr w0 <:+: lowerStr w) : containsCI s w0 := by
  rw [startsWithCI] at h
  rcases isPrefixOf_ex _ _ h with ⟨r, hr⟩
  rcases hw with ⟨p, q, hpq⟩
  rw [containsCI]
  have hdrop : lowerStr (s.drop k) = (lowerStr s).drop k := by
    rw [lowerStr, lowerStr, List.map_drop]
  refine ⟨(lowerStr s).take k ++ p, q ++ r, ?_⟩
  conv_rhs => rw [← List.take_append_drop k (lowerStr s)]
  rw [← hdrop, hr, ← hpq]
  simp

theorem containsCI_drop (s w : Str) (k : Nat) (h : containsCI (s.drop k) w) :
    containsCI s w := by
  rw [containsCI] at h ⊢
  rcases h with ⟨p, q, hpq⟩
  refine ⟨(lowerStr s).take k ++ p, q, ?_⟩
  have hdrop : lowerStr (s.drop k) = (lowerStr s).drop k := by
    rw [lowerStr, lowerStr, List.map_drop]
  conv_rhs => rw [← List.take_append_drop k (lowerStr s)]
  rw [← hdrop, ← hpq]
  simp


theorem mUrl1_hit (s : Str) (n : Nat) (h : mUrl1 s = some n) : catalogHit s := by
  simp only [mUrl1] at h
  split at h
  · simp at h
  · split at h
    · rename_i hsw
      exact Or.inl (containsCI_of_sw s _ _ _ hsw (⟨[], ['.'], by decide⟩))
    · simp at h

theorem mUrl2_hit (s : Str) (n : Nat) (h : mUrl2 s = some n) : catalogHit s := by
  simp only [mUrl2] at h
  split at h
  · simp at h
  · split at h
    · rename_i hsw
      exact Or.inl (containsCI_of_sw s _ _ _ hsw (⟨[], ['.'], by decide⟩))
    · simp at h

theorem mShort_amzn_hit (s : Str) (n : Nat)
    (h : mShort "amzn.to".data s = some n) : catalogHit s := by
  simp only [mShort] at h
  split at h
  · simp at h
  · split at h
    · rename_i hsw
      exact Or.inr (Or.inl (containsCI_of_sw s _ _ _ hsw (⟨[], ['/'], by decide⟩)))
    · simp at h

theorem mShort_aco_hit (s : Str) (n : Nat)
    (h : mShort "a.co".data s = some n) : catalogHit s := by
  simp only [mShort] at h
  split at h
  · simp at h
  · split at h
    · rename_i hsw
      exact Or.inr (Or.inr (containsCI_of_sw s _ _ _ hsw (⟨[], ['/'], by decide⟩)))
    · simp at h

theorem mShort_amazonto_hit (s : Str) (n : Nat)
    (h : mShort "amazon.to".data s = some n) : catalogHit s := by
  simp only [mShort] at h
  split at h
  · simp at h
  · split at h
    · rename_i hsw
      exact Or.inl (containsCI_of_sw s _ _ _ hsw (⟨[], ".to/".data, by decide⟩))
    · simp at h

theorem mSubAmazon_smile_hit (s : Str) (n : Nat)
    (h : mSubAmazon "smile".data s = some n) : catalogHit s := by
  simp only [mSubAmazon] at h
  split at h
  · simp at h
  · split at h
    · rename_i hsw
      exact Or.inl (containsCI_of_sw s _ _ _ hsw (⟨"smile.".data, ['.'], by decide⟩))
    · simp at h

theorem mSubAmazon_business_hit (s : Str) (n : Nat)
    (h : mSubAmazon "business".data s = some n) : catalogHit s := by
  simp only [mSubAmazon] at h
  split at h
  · simp at h
  · split at h
    · rename_i hsw
      exact Or.inl (containsCI_of_sw s _ _ _ hsw (⟨"business.".data, ['.'], by decide⟩))
    · simp at h

theorem mSubAmazon_prime_hit (s : Str) (n : Nat)
    (h : mSubAmazon "prime".data s = some n) : catalogHit s := by
  simp only [mSubAmazon] at h
  split at h
  · simp at h
  · split at h
    · rename_i hsw
      exact Or.inl (containsCI_of_sw s _ _ _ hsw (⟨"prime.".data, ['.'], by decide⟩))
    · simp at h

theorem mNoProto_hit (s : Str) (n : Nat) (h : mNoProto s = some n) : catalogHit s := by
  simp only [mNoProto] at h
  split at h
  · rename_i hsw
    exact Or.inl (containsCI_of_sw s _ _ _ hsw (⟨[], ['.'], by decide⟩))
  · simp at h

theorem mAppLink_hit (s : Str) (n : Nat) (h : mAppLink s = some n) : catalogHit s := by
  simp only [mAppLink] at h
  split at h
  · rename_i hsw
    have hsw0 : startsWithCI "amazon://".data (s.drop 0) = true := hsw
    exact Or.inl (containsCI_of_sw s _ _ 0 hsw0 (⟨[], "://".data, by decide⟩))
  · simp at h

theorem mSubdom_hit (s : Str) (n : Nat) (h : mSubdom s = some n) : catalogHit s := by
  simp only [mSubdom] at h
  split at h
  · simp at h
  · split at h
    · rename_i hsw
      exact Or.inl (containsCI_of_sw s _ _ _ hsw (⟨['.'], ['.'], by decide⟩))
    · simp at h

theorem matcher_hit (m : Str → Option Nat) (hm : m ∈ amazonMatchers) (s : Str) (n : Nat)
    (h : m s = some n) : catalogHit s := by
  rw [amazonMatchers] at hm
  simp only [List.mem_cons, List.not_mem_nil, or_false] at hm
  rcases hm with rfl | rfl | rfl | rfl | rfl | rfl | rfl | rfl | rfl | rfl | rfl
  · exact mUrl1_hit s n h
  · exact mUrl2_hit s n h
  · exact mShort_amzn_hit s n h
  · exact mShort_aco_hit s n h
  · exact mShort_amazonto_hit s n h
  · exact mSubAmazon_smile_hit s n h
  · exact mSubAmazon_business_hit s n h
  · exact mSubAmazon_prime_hit s n h
  · exact mNoProto_hit s n h
  · exact mAppLink_hit s n h
  · exact mSubdom_hit s n h

theorem catalogHit_drop (s : Str) (k : Nat) (h : catalogHit (s.drop k)) :
    catalogHit s := by
  rcases h with h | h | h
  · exact Or.inl (containsCI_drop s _ k h)
  · exact Or.inr (Or.inl (containsCI_drop s _ k h))
  · exact Or.inr (Or.inr (containsCI_drop s _ k h))

theorem findIterGo_nil (m : Str → Option Nat) (s : Str)
    (hm : ∀ k, m (s.drop k) = none) : ∀ pos b, findIterGo m pos b s = [] := by
  induction s with
  | nil =>
    intro pos b
    cases b with
    | zero =>
      have h0 : m [] = none := hm 0
      simp [findIterGo, h0]
    | succ b => rfl
  | cons c t ih =>
    intro pos b
    cases b with
    | zero =>
      have h0 : m (c :: t) = none := hm 0
      simp only [findIterGo, h0]
      exact ih (fun k => hm (k + 1)) (pos + 1) 0
    | succ b => exact ih (fun k => hm (k + 1)) (pos + 1) b

theorem getD_mem_or {α : Type} (l : List α) (i : Nat) (d : α) :
    l.getD i d ∈ l ∨ l.getD i d = d := by
  by_cases h : i < l.length
  · left
    rw [List.getD_eq_getElem l d h]
    exact List.getElem_mem h
  · right
    exact List.getD_eq_default l d (le_of_not_lt h)

theorem allLinks_nil (text : Str) (h : ¬ catalogHit text) : allLinks text = [] := by
  rw [allLinks]
  apply List.flatMap_eq_nil_iff.mpr
  intro i _
  have hfi : findIter (amazonMatchers.getD i (fun _ => none)) 0 text = [] := by
    rw [findIter]
    apply findIterGo_nil
    intro k
    rcases hv : (amazonMatchers.getD i (fun _ => none)) (text.drop k) with _ | n
    · rfl
    · rcases getD_mem_or amazonMatchers i (fun _ => none) with hmem | hd
      · exact absurd (catalogHit_drop text k
          (matcher_hit _ hmem (text.drop k) n hv)) h
      · rw [hd] at hv
        exact absurd hv (by simp)
  rw [hfi]
  rfl

/-- C7: for every input text containing no catalog-domain substring
(case-insensitive `amazon`, `amzn.to`, `a.co`), `convert_all_links`
returns the input text unchanged with a conversion count of zero. -/
theorem c7_claim (text tag su : Str)
    (h1 : ¬ containsCI text "amazon".data)
    (h2 : ¬ containsCI text "amzn.to".data)
    (h3 : ¬ containsCI text "a.co".data) :
    convertAllLinks text tag su = (text, 0) := by
  rw [convertAllLinks]
  split
  · rfl
  · have hu : uniqueLinks text = [] := by
      rw [uniqueLinks, allLinks_nil text (by rintro (h | h | h) <;> tauto)]
      rfl
    rw [hu]
    rfl

theorem c7_wit :
    (¬ containsCI "check https://example.org/dp/B08N5WRWNW now".data "amazon".data) ∧
    (¬ containsCI "check https://example.org/dp/B08N5WRWNW now".data "amzn.to".data) ∧
    (¬ containsCI "check https://example.org/dp/B08N5WRWNW now".data "a.co".data) ∧
    convertAllLinks "check https://example.org/dp/B08N5WRWNW now".data
      "mytag-21".data "amazon.in".data
      = ("check https://example.org/dp/B08N5WRWNW now".data, 0) :=
  ⟨by decide, by decide, by decide,
    c7_claim "check https://example.org/dp/B08N5WRWNW now".data
      "mytag-21".data "amazon.in".data (by decide) (by decide) (by decide)⟩

/-- C10: empty or missing input is returned as-is with a zero count. -/
theorem c10_claim (tag su : Str) :
    convertAllLinks [] tag su = ([], 0) ∧
    convertAllLinksOpt none tag su = (none, 0) :=
  ⟨rfl, rfl⟩

theorem uniqueLinks_nil_eq : uniqueLinks [] = [] := rfl

/-- C8: a text whose recognized links all collapse to one unique URL is
counted once, and the single replacement pass rewrites every literal
occurrence of that URL in the text. -/
theorem processLinks_step (text tag su : Str) (l : LinkInfo) (t : List LinkInfo)
    (ct : Str) (cnt : Nat)
    (hne : convertAmazonLink l.url tag su ≠ l.url)
    (horig : (text.drop l.start).take (l.ending - l.start) = l.url) :
    processLinks text tag su (l :: t) (ct, cnt)
      = processLinks text tag su t
          (replaceAll ct l.url (convertAmazonLink l.url tag su), cnt + 1) := by
  simp only [processLinks]
  rw [if_pos hne, horig]
  rw [if_neg (by intro hc; exact hc.1 rfl)]

theorem c8_claim (text tag su : Str) (l : LinkInfo)
    (hdup : 2 ≤ ((allLinks text).filter (fun x => x.url = l.url)).length)
    (hu : uniqueLinks text = [l])
    (hne : convertAmazonLink l.url tag su ≠ l.url)
    (horig : (text.drop l.start).take (l.ending - l.start) = l.url) :
    convertAllLinks text tag su
      = (replaceAll text l.url (convertAmazonLink l.url tag su), 1) := by
  have htxt : ¬ text = [] := by
    intro h0
    rw [h0, uniqueLinks_nil_eq] at hu
    exact absurd hu (by simp)
  rw [convertAllLinks, if_neg htxt, hu, processLinks_step text tag su l [] text 0 hne horig]
  rfl

set_option maxRecDepth 4000 in
theorem c8_wit :
    2 ≤ ((allLinks "buy https://amazon.in/dp/B08N5WRWNW or https://amazon.in/dp/B08N5WRWNW now".data).filter
        (fun x => x.url = "https://amazon.in/dp/B08N5WRWNW".data)).length ∧
    uniqueLinks "buy https://amazon.in/dp/B08N5WRWNW or https://amazon.in/dp/B08N5WRWNW now".data
      = [⟨"https://amazon.in/dp/B08N5WRWNW".data, 4, 35, 0⟩] ∧
    convertAllLinks "buy https://amazon.in/dp/B08N5WRWNW or https://amazon.in/dp/B08N5WRWNW now".data
        "mytag-21".data "amazon.in".data
      = ("buy https://amazon.in/dp/B08N5WRWNW?tag=mytag-21 or https://amazon.in/dp/B08N5WRWNW?tag=mytag-21 now".data, 1) := by
  refine ⟨by decide, by decide, ?_⟩
  have h := c8_claim
    "buy https://amazon.in/dp/B08N5WRWNW or https://amazon.in/dp/B08N5WRWNW now".data
    "mytag-21".data "amazon.in".data
    ⟨"https://amazon.in/dp/B08N5WRWNW".data, 4, 35, 0⟩
    (by decide) (by decide) (by decide) (by decide)
  rw [h]
  decide

theorem infix_of_pref {α : Type} (a s : List α) (h : a <+: s) : a <:+: s := by
  rcases h with ⟨r, hr⟩
  exact ⟨[], r, by simp [hr]⟩

theorem isPrefixOf_app (w r : Str) : w.isPrefixOf (w ++ r) = true := by
  induction w with
  | nil => simp [List.isPrefixOf]
  | cons c t ih => simp [List.isPrefixOf, ih]

theorem infix_cons {α : Type} (a t : List α) (c : α) (h : a <:+: t) : a <:+: c :: t := by
  rcases h with ⟨p, q, hpq⟩
  exact ⟨c :: p, q, by simp [hpq]⟩

theorem replaceAll_no_occ (s old new : Str) (hni : ¬ old <:+: s) :
    replaceAll s old new = s := by
  have hone : old ≠ [] := by
    intro h0
    exact hni (h0 ▸ ⟨[], s, rfl⟩)
  rw [replaceAll, if_neg hone]
  induction s with
  | nil => rfl
  | cons c t ih =>
    rw [replaceGo]
    have hnp : old.isPrefixOf (c :: t) = false := by
      rcases hb : old.isPrefixOf (c :: t) with _ | _
      · rfl
      · refine absurd ?_ hni
        rcases isPrefixOf_ex old (c :: t) hb with ⟨r, hr⟩
        exact ⟨[], r, by simp [hr]⟩
    rw [hnp]
    show c :: replaceGo old new 0 t = c :: t
    rw [ih (fun hinf => hni (infix_cons old t c hinf))]

/-- C5 (amended): unique links are processed in first-occurrence order
(pattern-major, then position), not longest-match-first; when the earlier
link is a proper prefix of a later one, its global replacement destroys the
later occurrence, the later link is then never rewritten, yet it is still
counted, so the output retains the corrupted remainder. -/
theorem c5_amended (text tag su : Str) (l1 l2 : LinkInfo)
    (hu : uniqueLinks text = [l1, l2])
    (hpre : l1.url <+: l2.url)
    (hne1 : convertAmazonLink l1.url tag su ≠ l1.url)
    (hne2 : convertAmazonLink l2.url tag su ≠ l2.url)
    (ho1 : (text.drop l1.start).take (l1.ending - l1.start) = l1.url)
    (ho2 : (text.drop l2.start).take (l2.ending - l2.start) = l2.url)
    (hgone : ¬ l2.url <:+: replaceAll text l1.url (convertAmazonLink l1.url tag su)) :
    convertAllLinks text tag su
      = (replaceAll text l1.url (convertAmazonLink l1.url tag su), 2) := by
  have htxt : ¬ text = [] := by
    intro h0
    rw [h0, uniqueLinks_nil_eq] at hu
    exact absurd hu (by simp)
  rw [convertAllLinks, if_neg htxt, hu,
    processLinks_step text tag su l1 [l2] text 0 hne1 ho1]
  simp only [processLinks]
  rw [if_pos hne2, ho2, replaceAll_no_occ _ _ _ hgone]
  rw [if_neg (by intro hc; exact hc.1 rfl)]

set_option maxRecDepth 4000 in
theorem c5_amended_wit :
    uniqueLinks "https://amazon.in/dp/B08N5WRWNW https://amazon.in/dp/B08N5WRWNWQQ".data
      = [⟨"https://amazon.in/dp/B08N5WRWNW".data, 0, 31, 0⟩,
         ⟨"https://amazon.in/dp/B08N5WRWNWQQ".data, 32, 65, 0⟩] ∧
    "https://amazon.in/dp/B08N5WRWNW".data <+: "https://amazon.in/dp/B08N5WRWNWQQ".data ∧
    convertAllLinks "https://amazon.in/dp/B08N5WRWNW https://amazon.in/dp/B08N5WRWNWQQ".data
        "mytag-21".data "amazon.in".data
      = ("https://amazon.in/dp/B08N5WRWNW?tag=mytag-21 https://amazon.in/dp/B08N5WRWNW?tag=mytag-21QQ".data, 2) := by
  refine ⟨by decide, by decide, ?_⟩
  have h := c5_amended
    "https://amazon.in/dp/B08N5WRWNW https://amazon.in/dp/B08N5WRWNWQQ".data
    "mytag-21".data "amazon.in".data
    ⟨"https://amazon.in/dp/B08N5WRWNW".data, 0, 31, 0⟩
    ⟨"https://amazon.in/dp/B08N5WRWNWQQ".data, 32, 65, 0⟩
    (by decide) (by decide) (by decide) (by decide) (by decide) (by decide) (by decide)
  rw [h]
  decide

set_option maxRecDepth 4000 in
/-- C5 (counterexample): the spec asserts an order preventing the shorter
replacement from corrupting the longer occurrence; in fact the longer URL,
whose own conversion carries `tag=mytag-21`, ends up in the output with the
corrupted parameter `tag=mytag-21QQ`. -/
theorem c5_counter :
    (uniqueLinks "https://amazon.in/dp/B08N5WRWNW https://amazon.in/dp/B08N5WRWNWQQ".data).map
        (fun l => l.url)
      = ["https://amazon.in/dp/B08N5WRWNW".data, "https://amazon.in/dp/B08N5WRWNWQQ".data] ∧
    "https://amazon.in/dp/B08N5WRWNW".data <+: "https://amazon.in/dp/B08N5WRWNWQQ".data ∧
    "https://amazon.in/dp/B08N5WRWNW".data ≠ "https://amazon.in/dp/B08N5WRWNWQQ".data ∧
    convertAmazonLink "https://amazon.in/dp/B08N5WRWNWQQ".data "mytag-21".data "amazon.in".data
      = "https://amazon.in/dp/B08N5WRWNW?tag=mytag-21".data ∧
    convertAllLinks "https://amazon.in/dp/B08N5WRWNW https://amazon.in/dp/B08N5WRWNWQQ".data
        "mytag-21".data "amazon.in".data
      = ("https://amazon.in/dp/B08N5WRWNW?tag=mytag-21 https://amazon.in/dp/B08N5WRWNW?tag=mytag-21QQ".data, 2) ∧
    tagPairsOf "https://amazon.in/dp/B08N5WRWNW?tag=mytag-21QQ".data
      = [(tagKey, "mytag-21QQ".data)] := by decide

theorem seg_no_pid (t : List SPost) (P : SPost → Bool) (pid now : Nat)
    (h : ∀ r ∈ t, P r = true → r.pid ≠ pid) :
    ((t.filter P).map (fun q => (q.pid, now))).filter
        (fun e => e.1 = pid) = [] := by
  rw [List.filter_eq_nil_iff]
  intro e he
  rcases List.mem_map.1 he with ⟨q, hq, rfl⟩
  rcases List.mem_filter.1 hq with ⟨hq1, hq2⟩
  simpa using h q hq1 hq2

theorem seg_one_pid (t : List SPost) (p : SPost) (P : SPost → Bool) (now : Nat)
    (hnd : (t.map SPost.pid).Nodup) (hmem : p ∈ t) (hP : P p = true) :
    ((t.filter P).map (fun q => (q.pid, now))).filter
        (fun e => e.1 = p.pid) = [(p.pid, now)] := by
  induction t with
  | nil => exact absurd hmem (by simp)
  | cons q t2 ih =>
    rw [List.map_cons, List.nodup_cons] at hnd
    rcases List.mem_cons.1 hmem with rfl | hmem2
    · rw [List.filter_cons, if_pos hP, List.map_cons, List.filter_cons,
        if_pos (by simp)]
      rw [seg_no_pid t2 P p.pid now ?_]
      intro r hr _ hrp
      exact hnd.1 (hrp ▸ List.mem_map.2 ⟨r, hr, rfl⟩)
    · have hqp : q.pid ≠ p.pid := by
        intro he
        exact hnd.1 (he ▸ List.mem_map.2 ⟨p, hmem2, rfl⟩)
      rw [List.filter_cons]
      split
      · rw [List.map_cons, List.filter_cons, if_neg (by simpa using hqp)]
        exact ih hnd.2 hmem2
      · exact ih hnd.2 hmem2

theorem nodup_pid_inj (l : List SPost) (hnd : (l.map SPost.pid).Nodup)
    (p q : SPost) (hp : p ∈ l) (hq : q ∈ l) (he : p.pid = q.pid) : p = q :=
  List.inj_on_of_nodup_map hnd hp hq he

/-- C9: a pending scheduled post whose process restarts before its target
time is delivered exactly once at-or-after the target time: the recovery
sweep re-registers its timer, the dispatch at time `now` logs one delivery
and marks it sent, and a later dispatch adds no second delivery. -/
theorem c9_claim (s : SState) (p : SPost) (now now2 : Nat)
    (hmem : p ∈ s.store)
    (hpend : p.status = PStatus.pending)
    (hnd : (s.store.map SPost.pid).Nodup)
    (hlog : ∀ e ∈ s.log, e.1 ≠ p.pid)
    (htime : p.target ≤ now)
    (h12 : now ≤ now2) :
    ((dispatchDue now2 (dispatchDue now (restartProc s))).log.filter
        (fun e => e.1 = p.pid)) = [(p.pid, now)] ∧
    p.target ≤ now := by
  refine ⟨?_, htime⟩
  have htim : p.pid ∈ (restartProc s).timers := by
    rw [restartProc, recoverySweep]
    exact List.mem_map.2 ⟨p, List.mem_filter.2 ⟨hmem, by simp [hpend]⟩, rfl⟩
  have hfires : firesAt now (restartProc s).timers p = true := by
    simp [firesAt, htim, hpend, htime]
  have hstore1 : (restartProc s).store = s.store := by
    rw [restartProc, recoverySweep]
  have hlog1 : (restartProc s).log = s.log := by
    rw [restartProc, recoverySweep]
  rw [dispatchDue]
  rw [show (dispatchDue now (restartProc s)).log
      = (restartProc s).log ++ ((restartProc s).store.filter
          (firesAt now (restartProc s).timers)).map (fun q => (q.pid, now))
    from rfl]
  rw [show (dispatchDue now (restartProc s)).store
      = (restartProc s).store.map (fun q =>
          if firesAt now (restartProc s).timers q then
            { q with status := PStatus.sent } else q)
    from rfl]
  rw [List.filter_append, List.filter_append]
  rw [hstore1, hlog1]
  have h0 : s.log.filter (fun e => e.1 = p.pid) = [] := by
    rw [List.filter_eq_nil_iff]
    intro e he
    simpa using hlog e he
  have h1 : ((s.store.filter (firesAt now (restartProc s).timers)).map
      (fun q => (q.pid, now))).filter (fun e => e.1 = p.pid)
      = [(p.pid, now)] :=
    seg_one_pid s.store p _ now hnd hmem hfires
  have h2 : (((s.store.map (fun q =>
        if firesAt now (restartProc s).timers q then
          { q with status := PStatus.sent } else q)).filter
        (firesAt now2 (dispatchDue now (restartProc s)).timers)).map
        (fun q => (q.pid, now2))).filter (fun e => e.1 = p.pid) = [] := by
    apply seg_no_pid
    intro r hr hfr hrp
    rcases List.mem_map.1 hr with ⟨q, hq, rfl⟩
    by_cases hfq : firesAt now (restartProc s).timers q = true
    · rw [if_pos hfq] at hfr hrp
      rw [firesAt] at hfr
      simp at hfr
    · rw [if_neg hfq] at hfr hrp
      have hqep : q = p := nodup_pid_inj s.store hnd q p hq hmem hrp
      rw [hqep] at hfq
      exact hfq hfires
  rw [h0, h1, h2]
  rfl

theorem c9_wit :
    ((dispatchDue 70 (dispatchDue 60 (restartProc
        ⟨[⟨1, 50, PStatus.pending⟩, ⟨2, 80, PStatus.sent⟩], [], []⟩))).log.filter
        (fun e => e.1 = 1)) = [(1, 60)] ∧ (50 : Nat) ≤ 60 :=
  c9_claim ⟨[⟨1, 50, PStatus.pending⟩, ⟨2, 80, PStatus.sent⟩], [], []⟩
    ⟨1, 50, PStatus.pending⟩ 60 70 (by decide) (by decide) (by decide)
    (by intro e he; exact absurd he (by simp)) (by decide) (by decide)

/-- C4 (counterexample): converting an already-converted shortened link
appends a second `tag` parameter, so `convert_amazon_link` is not
idempotent. -/
theorem c4_counter :
    convertAmazonLink "https://amzn.to/3xYzAbc".data "mytag-21".data "amazon.in".data
      = "https://amzn.to/3xYzAbc?tag=mytag-21".data ∧
    convertAmazonLink "https://amzn.to/3xYzAbc?tag=mytag-21".data "mytag-21".data "amazon.in".data
      = "https://amzn.to/3xYzAbc?tag=mytag-21&tag=mytag-21".data ∧
    convertAmazonLink
        (convertAmazonLink "https://amzn.to/3xYzAbc".data "mytag-21".data "amazon.in".data)
        "mytag-21".data "amazon.in".data
      ≠ convertAmazonLink "https://amzn.to/3xYzAbc".data "mytag-21".data "amazon.in".data := by
  decide

theorem lowerC_idem (c : Char) : lowerC (lowerC c) = lowerC c := by
  rcases lowerC_eq_or c with h | ⟨_, _, ha, hz⟩
  · rw [h]
    exact h
  · apply lowerC_notupper
    rintro ⟨h1, h2⟩
    have h2n : (lowerC c).toNat ≤ (90 : Nat) := h2
    have han : (97 : Nat) ≤ (lowerC c).toNat := ha
    omega

theorem lowerStr_idem (s : Str) : lowerStr (lowerStr s) = lowerStr s := by
  simp only [lowerStr, List.map_map]
  exact List.map_congr_left (fun c _ => lowerC_idem c)

theorem lowerStr_append (a b : Str) : lowerStr (a ++ b) = lowerStr a ++ lowerStr b := by
  simp [lowerStr]

theorem tryMatchers_cons_hit (m : Str → Option Str) (ms : List (Str → Option Str))
    (p : Str) (a : Str) (hsp : searchPos m p = some a)
    (h10 : a.length = 10) (hal : a.all isAlnumA = true) :
    tryMatchers (m :: ms) p = some a := by
  rw [tryMatchers, hsp]
  show (if a.length = 10 ∧ a.all isAlnumA = true then some a else tryMatchers ms p) = some a
  rw [if_pos ⟨h10, hal⟩]

theorem extractAsin_dp (a : Str) (h10 : a.length = 10) (hal : a.all isAlnumA = true) :
    extractAsin ("/dp/".data ++ a) = some a := by
  have hsw : startsWithCI "/dp/".data ("/dp/".data ++ a) = true := by
    rw [startsWithCI, lowerStr_append]
    rw [show lowerStr "/dp/".data = "/dp/".data from rfl]
    exact isPrefixOf_app "/dp/".data (lowerStr a)
  have hg : grab10 a = some (a, []) := by
    have ht : a.take 10 = a := List.take_of_length_le (by omega)
    have hd : a.drop 10 = [] := List.drop_eq_nil_of_le (by omega)
    simp only [grab10]
    rw [ht, hd, if_pos ⟨h10, hal⟩]
  have hm : mLit10 "/dp/".data ("/dp/".data ++ a) = some a := by
    rw [mLit10, if_pos hsw]
    rw [show ("/dp/".data ++ a).drop ("/dp/".data).length = a from List.drop_left _ _]
    rw [hg]
    rfl
  have hsp : searchPos (mLit10 "/dp/".data) ("/dp/".data ++ a) = some a := by
    rw [show "/dp/".data ++ a = '/' :: ("dp/".data ++ a) from rfl]
    rw [searchPos]
    rw [show ('/' :: ("dp/".data ++ a)) = "/dp/".data ++ a from rfl, hm]
  rw [extractAsin, asinMatchers]
  exact tryMatchers_cons_hit _ _ _ a hsp h10 hal

theorem delKey_append_notin (G : List (Str × List Str)) (k : Str) (v : List Str)
    (h : k ∉ keysOf G) : delKey (G ++ [(k, v)]) k = G := by
  induction G with
  | nil => simp [delKey]
  | cons p t ih =>
    obtain ⟨a, b⟩ := p
    have ha : ¬ a = k := by
      intro he
      exact h (by simp [keysOf, he])
    rw [List.cons_append, delKey, if_neg ha]
    rw [ih (by intro hm; exact h (by simp [keysOf] at hm ⊢; exact Or.inr hm))]

theorem retag_stable (G : List (Str × List Str)) (tag : Str)
    (hG : tagKey ∉ keysOf G) :
    retag (G ++ [(tagKey, [tag])]) tag = G ++ [(tagKey, [tag])] := by
  have hk : hasKey (G ++ [(tagKey, [tag])]) tagKey = true := by
    rw [hasKey_iff, keysOf_append]
    exact List.mem_append.mpr (Or.inr (by simp [keysOf]))
  rw [retag, if_pos hk, delKey_append_notin G tagKey [tag] hG,
    setKey_notin G tagKey [tag] hG]

theorem retag_keys_nodup (d : List (Str × List Str)) (tag : Str)
    (hnd : (keysOf d).Nodup) : (keysOf (retag d tag)).Nodup := by
  obtain ⟨d0, heq, hsub, hnm⟩ := retag_decomp d tag hnd
  rw [heq, keysOf_append]
  have h0 : (keysOf d0).Nodup := hnd.sublist (keysOf_sublist d0 d hsub)
  rw [show keysOf [(tagKey, [tag])] = [tagKey] from rfl]
  rw [List.nodup_append]
  exact ⟨h0, by simp, fun a ha hb => hnm ((List.mem_singleton.1 hb) ▸ ha)⟩

theorem retag_inv (d : List (Str × List Str)) (tag : Str)
    (hnd : (keysOf d).Nodup)
    (hinv : ∀ p ∈ d, p.2 ≠ [] ∧ ∀ x ∈ p.2, x ≠ [])
    (ht : tag ≠ []) :
    ∀ p ∈ retag d tag, p.2 ≠ [] ∧ ∀ x ∈ p.2, x ≠ [] := by
  obtain ⟨d0, heq, hsub, _⟩ := retag_decomp d tag hnd
  rw [heq]
  intro p hp
  rcases List.mem_append.1 hp with h1 | h1
  · exact hinv p (hsub.mem h1)
  · rcases List.mem_singleton.1 h1 with rfl
    exact ⟨by simp, by intro x hx; rcases List.mem_singleton.1 hx with rfl; exact ht⟩

theorem filter_keys_nodup (d : List (Str × List Str)) (p : Str × List Str → Bool)
    (hnd : (keysOf d).Nodup) : (keysOf (d.filter p)).Nodup :=
  hnd.sublist (keysOf_sublist _ _ (List.filter_sublist d))

theorem filter_inv (d : List (Str × List Str)) (q : Str × List Str → Bool)
    (hinv : ∀ p ∈ d, p.2 ≠ [] ∧ ∀ x ∈ p.2, x ≠ []) :
    ∀ p ∈ d.filter q, p.2 ≠ [] ∧ ∀ x ∈ p.2, x ≠ [] :=
  fun p hp => hinv p (List.mem_of_mem_filter hp)

theorem c4_canon_built (T a tag su : Str)
    (hT1 : ∀ c ∈ T, isNetlocDelim c = false)
    (hT2 : bracketOk T = true)
    (hT3 : ∀ c ∈ T, ¬ (c = '\t' ∨ c = '\r' ∨ c = '\n'))
    (hTlow : lowerStr T = T)
    (hTam : (if "amazon".data <:+: T then T else su) = T)
    (ha10 : a.length = 10) (haal : a.all isAlnumA = true)
    (F : List (Str × List Str))
    (hFnd : (keysOf F).Nodup)
    (hFinv : ∀ p ∈ F, p.2 ≠ [] ∧ ∀ x ∈ p.2, x ≠ [])
    (hFtag : retag F tag = F)
    (hFkeep : F.filter (fun p => p.1 ∈ keepParams) = F)
    (hs2 : isShortFlag
      ("https://".data ++ T ++ ("/dp/".data ++ a) ++ '?' :: urlencode F) = false) :
    convertAmazonLink
        ("https://".data ++ T ++ ("/dp/".data ++ a) ++ '?' :: urlencode F) tag su
      = "https://".data ++ T ++ ("/dp/".data ++ a) ++ '?' :: urlencode F := by
  have hsemiP : ';' ∉ "/dp/".data ++ a := by
    intro hm
    rcases List.mem_append.1 hm with hm1 | hm1
    · exact absurd hm1 (by decide)
    · exact alnum_excl a haal ';' (by decide) hm1
  have hTabs : ∀ c ∈ ("https://".data ++ T ++ ("/dp/".data ++ a) ++
      '?' :: urlencode F), ¬ (c = '\t' ∨ c = '\r' ∨ c = '\n') := by
    intro c hc
    rcases List.mem_append.1 hc with hc1 | hc1
    · rcases List.mem_append.1 hc1 with hc2 | hc2
      · rcases List.mem_append.1 hc2 with hc3 | hc3
        · rintro (rfl | rfl | rfl) <;> revert hc3 <;> decide
        · exact hT3 c hc3
      · rcases List.mem_append.1 hc2 with hc3 | hc3
        · rintro (rfl | rfl | rfl) <;> revert hc3 <;> decide
        · refine notab_alnum c ?_
          rw [List.all_eq_true] at haal
          exact haal c hc3
    · rcases List.mem_cons.1 hc1 with rfl | hc2
      · decide
      · exact urlencode_notab F c hc2
  have hp1 := urlparse_built T ("/dp/".data ++ a) (urlencode F)
    hT1 hT2 (Or.inr ⟨"dp/".data ++ a, by simp⟩)
    (by
      intro hm
      rcases List.mem_append.1 hm with hm1 | hm1
      · exact absurd hm1 (by decide)
      · exact noq_alnum a haal hm1)
    (by
      intro hm
      rcases List.mem_append.1 hm with hm1 | hm1
      · exact absurd hm1 (by decide)
      · exact noh_alnum a haal hm1)
    (urlencode_noh F) hTabs
  rw [if_neg hsemiP, if_neg hsemiP] at hp1
  rw [convert_canonical_eq _ tag su _ a hs2 hp1 (extractAsin_dp a ha10 haal)]
  show "https://".data ++
      (if "amazon".data <:+: lowerStr T then lowerStr T else su) ++
      "/dp/".data ++ a ++ '?' :: urlencode
        ((retag (parseQs (urlencode F)) tag).filter (fun p => p.1 ∈ keepParams))
    = _
  rw [hTlow, hTam]
  rw [parseQs_urlencode F hFnd (fun p hp => (hFinv p hp).1)
    (fun p hp => (hFinv p hp).2)]
  rw [hFtag, hFkeep]
  simp

theorem c4_canon (url tag su : Str) (pr : ParseResult) (a : Str)
    (h1 : isShortFlag url = false)
    (hp : urlparse url = some pr)
    (ha : extractAsin pr.path = some a)
    (h2 : isShortFlag (convertAmazonLink url tag su) = false)
    (ht : tag ≠ [])
    (hsu : configOk su)
    (hsul : lowerStr su = su) :
    convertAmazonLink (convertAmazonLink url tag su) tag su
      = convertAmazonLink url tag su := by
  obtain ⟨hprD, hprB, hprQ, hprH, hprQH, hprMn, hprMp, hprMq, hprHd⟩ :=
    urlparse_parts url pr hp
  obtain ⟨ha10, haal⟩ := extractAsin_shape pr.path a ha
  obtain ⟨hsu1, hsu2, hsu3⟩ := hsu
  have hqnd := parseQs_nodup pr.query
  have hqinv := parseQs_inv pr.query
  obtain ⟨d0, hre, hsub, hnm⟩ := retag_decomp (parseQs pr.query) tag hqnd
  have hFsplit : (retag (parseQs pr.query) tag).filter (fun p => p.1 ∈ keepParams)
      = d0.filter (fun p => p.1 ∈ keepParams) ++ [(tagKey, [tag])] := by
    rw [hre, List.filter_append]
    rfl
  have hG : tagKey ∉ keysOf (d0.filter (fun p => p.1 ∈ keepParams)) :=
    fun hm => hnm ((keysOf_sublist _ _ (List.filter_sublist d0)).subset hm)
  have hFtag : retag ((retag (parseQs pr.query) tag).filter
      (fun p => p.1 ∈ keepParams)) tag
      = (retag (parseQs pr.query) tag).filter (fun p => p.1 ∈ keepParams) := by
    rw [hFsplit]
    exact retag_stable _ tag hG
  have hFkeep : ((retag (parseQs pr.query) tag).filter
      (fun p => p.1 ∈ keepParams)).filter (fun p => p.1 ∈ keepParams)
      = (retag (parseQs pr.query) tag).filter (fun p => p.1 ∈ keepParams) := by
    rw [List.filter_eq_self]
    intro p hp2
    exact (List.mem_filter.mp hp2).2
  have hFnd := filter_keys_nodup (retag (parseQs pr.query) tag)
    (fun p => p.1 ∈ keepParams) (retag_keys_nodup _ tag hqnd)
  have hFinv := filter_inv (retag (parseQs pr.query) tag)
    (fun p => p.1 ∈ keepParams) (retag_inv _ tag hqnd hqinv ht)
  by_cases hdd : "amazon".data <:+: lowerStr pr.netloc
  · have hc1 : convertAmazonLink url tag su
        = "https://".data ++ lowerStr pr.netloc ++ ("/dp/".data ++ a) ++
          '?' :: urlencode ((retag (parseQs pr.query) tag).filter
            (fun p => p.1 ∈ keepParams)) := by
      rw [convert_canonical_eq url tag su pr a h1 hp ha, if_pos hdd]
      simp
    rw [hc1] at h2 ⊢
    exact c4_canon_built (lowerStr pr.netloc) a tag su
      (lowerStr_delim pr.netloc (fun x hx => hprD x hx))
      (lowerStr_bracketOk pr.netloc hprB)
      (lowerStr_notab pr.netloc (fun x hx => (hprMn x hx).1))
      (lowerStr_idem pr.netloc)
      (if_pos hdd)
      ha10 haal _ hFnd hFinv hFtag hFkeep h2
  · have hc1 : convertAmazonLink url tag su
        = "https://".data ++ su ++ ("/dp/".data ++ a) ++
          '?' :: urlencode ((retag (parseQs pr.query) tag).filter
            (fun p => p.1 ∈ keepParams)) := by
      rw [convert_canonical_eq url tag su pr a h1 hp ha, if_neg hdd]
      simp
    rw [hc1] at h2 ⊢
    exact c4_canon_built su a tag su hsu1 hsu2 hsu3 hsul (ite_self su)
      ha10 haal _ hFnd hFinv hFtag hFkeep h2

theorem c4_search (url tag su : Str) (pr : ParseResult)
    (h1 : isShortFlag url = false)
    (hp : urlparse url = some pr)
    (ha : extractAsin pr.path = none)
    (hd : "amazon".data <:+: lowerStr pr.netloc)
    (h2 : isShortFlag (convertAmazonLink url tag su) = false)
    (hsc : ';' ∉ url)
    (ht : tag ≠ []) :
    convertAmazonLink (convertAmazonLink url tag su) tag su
      = convertAmazonLink url tag su := by
  obtain ⟨hprD, hprB, hprQ, hprH, hprQH, hprMn, hprMp, hprMq, hprHd⟩ :=
    urlparse_parts url pr hp
  have hnet : pr.netloc ≠ [] := by
    intro hnil
    rw [hnil] at hd
    rw [show lowerStr [] = [] from rfl] at hd
    have := hd.length_le
    simp at this
  have hqnd := parseQs_nodup pr.query
  have hqinv := parseQs_inv pr.query
  obtain ⟨d0, hre, hsub, hnm⟩ := retag_decomp (parseQs pr.query) tag hqnd
  have hRtag : retag (retag (parseQs pr.query) tag) tag
      = retag (parseQs pr.query) tag := by
    rw [hre]
    exact retag_stable d0 tag hnm
  have hRnd := retag_keys_nodup (parseQs pr.query) tag hqnd
  have hRinv := retag_inv (parseQs pr.query) tag hqnd hqinv ht
  have hc1 : convertAmazonLink url tag su
      = "https://".data ++ lowerStr pr.netloc ++ pr.path ++
        '?' :: urlencode (retag (parseQs pr.query) tag) :=
    convert_search_eq url tag su pr h1 hp ha hd
  rw [hc1] at h2 ⊢
  have hsemiP : ';' ∉ pr.path := fun hm => hsc ((hprMp ';' hm).2)
  have hTabs : ∀ c ∈ ("https://".data ++ lowerStr pr.netloc ++ pr.path ++
      '?' :: urlencode (retag (parseQs pr.query) tag)),
      ¬ (c = '\t' ∨ c = '\r' ∨ c = '\n') := by
    intro c hc
    rcases List.mem_append.1 hc with hc1 | hc1
    · rcases List.mem_append.1 hc1 with hc2 | hc2
      · rcases List.mem_append.1 hc2 with hc3 | hc3
        · rintro (rfl | rfl | rfl) <;> revert hc3 <;> decide
        · exact lowerStr_notab pr.netloc (fun x hx => (hprMn x hx).1) c hc3
      · exact (hprMp c hc2).1
    · rcases List.mem_cons.1 hc1 with rfl | hc2
      · decide
      · exact urlencode_notab _ c hc2
  have hp1 := urlparse_built (lowerStr pr.netloc) pr.path
    (urlencode (retag (parseQs pr.query) tag))
    (lowerStr_delim pr.netloc (fun x hx => hprD x hx))
    (lowerStr_bracketOk pr.netloc hprB)
    (hprHd hnet) hprQ hprH (urlencode_noh _) hTabs
  rw [if_neg hsemiP, if_neg hsemiP] at hp1
  rw [convert_search_eq _ tag su _ h2 hp1 ha
    (by
      show "amazon".data <:+: lowerStr (lowerStr pr.netloc)
      rw [lowerStr_idem]
      exact hd)]
  show "https://".data ++ lowerStr (lowerStr pr.netloc) ++ pr.path ++
      '?' :: urlencode (retag (parseQs (urlencode (retag (parseQs pr.query) tag))) tag)
    = _
  rw [lowerStr_idem]
  rw [parseQs_urlencode (retag (parseQs pr.query) tag) hRnd
    (fun p hp2 => (hRinv p hp2).1) (fun p hp2 => (hRinv p hp2).2)]
  rw [hRtag]

/-- C4 (amended): `convert_amazon_link` is idempotent on full (non-shortened)
URLs whose rewritten form is itself not shortened-flagged, that carry no `;`,
with a nonempty affiliate tag and a well-formed, already-lowercase search
domain; shortened links are excluded, where idempotence genuinely fails. -/
theorem c4_amended (url tag su : Str)
    (h1 : isShortFlag url = false)
    (h2 : isShortFlag (convertAmazonLink url tag su) = false)
    (hsc : ';' ∉ url)
    (ht : tag ≠ [])
    (hsu : configOk su)
    (hsul : lowerStr su = su) :
    convertAmazonLink (convertAmazonLink url tag su) tag su
      = convertAmazonLink url tag su := by
  rcases hp : urlparse url with _ | pr
  · have hcv : convertAmazonLink url tag su = url := by
      rw [convertAmazonLink, if_neg (by simp [h1]), hp]
    rw [hcv]
    exact hcv
  · rcases ha : extractAsin pr.path with _ | a
    · by_cases hd : "amazon".data <:+: lowerStr pr.netloc
      · exact c4_search url tag su pr h1 hp ha hd h2 hsc ht
      · have hcv : convertAmazonLink url tag su = url := by
          refine convert_unrec_eq url tag su h1 ?_
          intro pr2 hp2
          rw [hp] at hp2
          injection hp2 with h3
          subst h3
          exact ⟨ha, hd⟩
        rw [hcv]
        exact hcv
    · exact c4_canon url tag su pr a h1 hp ha h2 ht hsu hsul

theorem c4_wit :
    isShortFlag "https://amazon.com/dp/B00TESTID1?ref=abc&tag=old".data = false ∧
    isShortFlag (convertAmazonLink "https://amazon.com/dp/B00TESTID1?ref=abc&tag=old".data
      "mytag-21".data "amazon.in".data) = false ∧
    ';' ∉ "https://amazon.com/dp/B00TESTID1?ref=abc&tag=old".data ∧
    "mytag-21".data ≠ ([] : Str) ∧
    configOk "amazon.in".data ∧
    lowerStr "amazon.in".data = "amazon.in".data ∧
    convertAmazonLink
        (convertAmazonLink "https://amazon.com/dp/B00TESTID1?ref=abc&tag=old".data
          "mytag-21".data "amazon.in".data)
        "mytag-21".data "amazon.in".data
      = convertAmazonLink "https://amazon.com/dp/B00TESTID1?ref=abc&tag=old".data
          "mytag-21".data "amazon.in".data :=
  ⟨by decide, by decide, by decide, by decide, by decide, by decide,
    c4_amended "https://amazon.com/dp/B00TESTID1?ref=abc&tag=old".data
      "mytag-21".data "amazon.in".data
      (by decide) (by decide) (by decide) (by decide) (by decide) (by decide)⟩

end AffBot
